import Mathlib

set_option maxHeartbeats 1000000
set_option maxRecDepth 8000

/-!
A shallow embedding of the tensor utility functions of
`src/biomedical_qa/tfutil.py`, together with proofs of the claimed
properties.

Tensors are modelled as (nested) lists over exact arithmetic: `ℚ` for the
index/comparison based operations, `ℝ` where `exp`/`sqrt` are involved,
`ℤ` for the runtime's signed integer tensors.  The segment reduction
primitives (`segment_max`, `segment_sum`) are modelled with the semantics
the host runtime gives them on valid (sorted) segment-id vectors; an empty
segment reduces to 0, as the runtime documents for `segment_max`, and the
default element of every scalar type used here is 0.  Fallible operations
(the runtime assertion inside `segment_argmax`) return `Option`.
-/

/-- Maximum of a nonempty list, mirroring the runtime's reduce-max over the
last dimension; the default element (0 for all scalar types used here)
stands in for the value of an empty reduction. -/
def listMax {α : Type} [LinearOrder α] [Inhabited α] (l : List α) : α :=
  match l with
  | [] => default
  | h :: t => t.foldl max h

/-- Number of segments inferred by the segment ops and by `segment_argmax`:
`reduce_max(partition) + 1`. -/
def numSegments (partition : List ℕ) : ℕ := listMax partition + 1

/-- The values (in order) whose partition id equals `g`. -/
def segmentSlice {α : Type} (vals : List α) (partition : List ℕ) (g : ℕ) : List α :=
  (vals.zip partition).filterMap (fun p => if p.2 = g then some p.1 else none)

/-- `tf.segment_max`: the per-segment maximum, one output row per segment id
in `[0, max(partition)]`; an empty segment yields 0. -/
def segment_max {α : Type} [LinearOrder α] [Inhabited α]
    (vals : List α) (partition : List ℕ) : List α :=
  (List.range (numSegments partition)).map (fun g => listMax (segmentSlice vals partition g))

/-- `tf.segment_sum`: the per-segment sum. -/
def segment_sum (vals : List ℝ) (partition : List ℕ) : List ℝ :=
  (List.range (numSegments partition)).map (fun g => (segmentSlice vals partition g).sum)

/-- `tf.gather` on a 1-D tensor. -/
def gatherL {α : Type} [Inhabited α] (vals : List α) (ids : List ℕ) : List α :=
  ids.map (fun g => vals.getD g default)

/-- Entry `(i, j)` of a 2-D tensor. -/
def getE {α : Type} [Inhabited α] (t : List (List α)) (i j : ℕ) : α :=
  (t.getD i []).getD j default

/-- `get_by_index(tensor, index)`: reshape to `[dim1 * dim2, dim3]` and
gather at the flat offsets `range(dim1) * dim2 + (index - 1)`. -/
def get_by_index (tensor : List (List (List ℚ))) (index : List ℤ) : List (List ℚ) :=
  let dim1 := tensor.length
  let dim2 := (tensor.headD []).length
  let flat_index := (List.range dim1).map (fun (i : ℕ) => (i : ℤ) * (dim2 : ℤ) + (index.getD i 0 - 1))
  flat_index.map (fun k => tensor.flatten.getD k.toNat [])

/-- `get_last(tensor)`: a slice of size `[dim1, 1, dim3]` beginning at
`[0, dim2 - 1, 0]`, with the middle dimension squeezed away. -/
def get_last (tensor : List (List (List ℚ))) : List (List ℚ) :=
  let dim1 := tensor.length
  let dim2 := (tensor.headD []).length
  let dim3 := ((tensor.headD []).headD []).length
  let sliced := ((tensor.drop 0).take dim1).map (fun m =>
    ((m.drop (dim2 - 1)).take 1).map (fun r => (r.drop 0).take dim3))
  sliced.map (fun m => m.headD [])

/-- `mask_for_lengths`: the `[batch_size, max_length]` grid with entry
`(b, j) = j`, compared against `lengths[b]`, cast to float and scaled by
`value`.  `max_length` defaults to `max(lengths)` and `batch_size` to the
number of lengths. -/
def mask_for_lengths (lengths : List ℤ) (batch_size : Option ℕ) (max_length : Option ℕ)
    (mask_right : Bool) (value : ℚ) : List (List ℚ) :=
  let ml := max_length.getD (listMax lengths).toNat
  let bs := batch_size.getD lengths.length
  (List.range bs).map (fun (b : ℕ) => (List.range ml).map (fun (j : ℕ) =>
    (if (if mask_right then lengths.getD b 0 ≤ (j : ℤ) else (j : ℤ) < lengths.getD b 0)
      then (1 : ℚ) else 0) * value))

/-- A tensor of arbitrary rank, for the dimension-generic gather: an
explicit shape together with the entry function on index vectors. -/
structure Tensor (α : Type) where
  shape : List ℕ
  entry : List ℕ → α

/-- `tf.transpose(x, perm)`: dimension `i` of the result is dimension
`perm[i]` of `x`. -/
def transposeT {α : Type} (perm : List ℕ) (x : Tensor α) : Tensor α :=
  { shape := perm.map (fun d => x.shape.getD d 0),
    entry := fun ix => x.entry ((List.range perm.length).map (fun k => ix.getD (perm.indexOf k) 0)) }

/-- `tf.gather(x, indices)` along dimension 0. -/
def gatherT {α : Type} (x : Tensor α) (indices : List ℕ) : Tensor α :=
  { shape := indices.length :: x.shape.tail,
    entry := fun ix => x.entry (indices.getD (ix.headD 0) 0 :: ix.tail) }

/-- The `to_dims` permutation built by `gather_in_dim`: `range(rank)` with
positions `0` and `dim` swapped. -/
def swapDims (r dim : ℕ) : List ℕ := ((List.range r).set 0 dim).set dim 0

/-- `gather_in_dim(params, indices, dim)`: gather along dimension `dim` by
transposing it to the front, gathering, and transposing back. -/
def gather_in_dim {α : Type} (params : Tensor α) (indices : List ℕ) (dim : ℕ) : Tensor α :=
  if dim = 0 then gatherT params indices
  else
    let to_dims := swapDims params.shape.length dim
    transposeT to_dims (gatherT (transposeT to_dims params) indices)

/-- Equality of tensors: same shape, and the same entry at every index
vector that is in range for that shape. -/
def validIx (shape ix : List ℕ) : Prop :=
  ix.length = shape.length ∧ ∀ k ∈ List.range shape.length, ix.getD k 0 < shape.getD k 0

def tensorEq {α : Type} (x y : Tensor α) : Prop :=
  x.shape = y.shape ∧ ∀ ix, validIx x.shape ix → x.entry ix = y.entry ix

/-- `unit_length`: multiply each row by the reciprocal square root of its
sum of squares. -/
noncomputable def unit_length (tensor : List (List ℝ)) : List (List ℝ) :=
  tensor.map (fun row =>
    let l2norm_sq := (row.map (fun x => x * x)).sum
    row.map (fun x => x * (Real.sqrt l2norm_sq)⁻¹))

/-- `segment_softmax(scores, partition)`: subtract the gathered per-segment
maximum of the per-row maxima, exponentiate, divide by the gathered
per-segment sum of the per-row sums. -/
noncomputable def segment_softmax (scores : List (List ℝ)) (partition : List ℕ) : List (List ℝ) :=
  let max_per_partition := segment_max (scores.map listMax) partition
  let shifted := List.zipWith (fun row m => row.map (fun x => x - m))
    scores (gatherL max_per_partition partition)
  let scores_exp := shifted.map (fun row => row.map Real.exp)
  let sum_per_partition := segment_sum (scores_exp.map (fun row => row.sum)) partition
  List.zipWith (fun row s => row.map (fun x => x / s))
    scores_exp (gatherL sum_per_partition partition)

/-- The boolean matrix `is_max` of `segment_argmax`: marks each entry equal
to the gathered maximum of its row's segment. -/
def isMaxMatrix (input : List (List ℚ)) (partition : List ℕ) : List (List Bool) :=
  let max_per_partition := segment_max (input.map listMax) partition
  List.zipWith (fun row m => row.map (fun x => decide (x = m)))
    input (gatherL max_per_partition partition)

/-- Total of a boolean row cast to integers, as in `reduce_sum(cast(is_max, int64))`. -/
def countTrue (l : List Bool) : ℕ := (l.map (fun b => if b then 1 else 0)).sum

/-- The `assert_equal(num_partitions, is_max_count)` check of `segment_argmax`. -/
def segment_argmax_assert (input : List (List ℚ)) (partition : List ℕ) : Bool :=
  decide (numSegments partition = ((isMaxMatrix input partition).map countTrue).sum)

/-- `squeeze(where(v))` on a boolean vector: the positions holding `true`,
in ascending order. -/
def whereTrue (l : List Bool) : List ℕ :=
  (List.range l.length).filter (fun i => l.getD i false)

/-- `tf.argmax` on a row of 0/1 values: the first `true` position, or 0
when there is none. -/
def argmaxBool (l : List Bool) : ℕ := if l.any id then l.findIdx id else 0

/-- The row and column indices `segment_argmax` computes once the assertion
has passed. -/
def segment_argmax_core (input : List (List ℚ)) (partition : List ℕ) : List ℕ × List ℕ :=
  let is_max := isMaxMatrix input partition
  let row_indices := whereTrue (is_max.map (fun r => r.any id))
  let col_indices := (gatherL is_max row_indices).map argmaxBool
  (row_indices, col_indices)

/-- `segment_argmax(input, partition)`; `none` models the fatal runtime
assertion failure. -/
def segment_argmax (input : List (List ℚ)) (partition : List ℕ) : Option (List ℕ × List ℕ) :=
  if segment_argmax_assert input partition then some (segment_argmax_core input partition)
  else none

/-- `gather_rowwise_indices_1d(indices)`: the transpose of
`pack([range(rows), indices])`, i.e. the coordinate pairs `(i, indices[i])`. -/
def gather_rowwise_indices_1d (indices : List ℕ) : List (ℕ × ℕ) :=
  (List.range indices.length).zip indices

/-- `tf.gather_nd` on a 2-D tensor with a list of coordinate pairs. -/
def gather_nd (input : List (List ℚ)) (ix : List (ℕ × ℕ)) : List ℚ :=
  ix.map (fun p => getE input p.1 p.2)

/-- `gather_rowwise_1d(input, indices)`. -/
def gather_rowwise_1d (input : List (List ℚ)) (indices : List ℕ) : List ℚ :=
  gather_nd input (gather_rowwise_indices_1d indices)

/-- The maximum over every cell of every row of partition group `g` (the
`M_g` of the specification). -/
def gMax {α : Type} [LinearOrder α] [Inhabited α]
    (input : List (List α)) (partition : List ℕ) (g : ℕ) : α :=
  listMax (segmentSlice input partition g).flatten

/-- `(r, c)` is a coordinate of partition group `g` whose value attains the
group's maximum. -/
def maxCell (input : List (List ℚ)) (partition : List ℕ) (g : ℕ) (rc : ℕ × ℕ) : Prop :=
  rc.1 < partition.length ∧ rc.2 < (input.getD rc.1 []).length ∧
    partition.getD rc.1 0 = g ∧ getE input rc.1 rc.2 = gMax input partition g

/-- The number of cells of partition group `g` attaining the group's
maximum value. -/
def maxCellCount (input : List (List ℚ)) (partition : List ℕ) (g : ℕ) : ℕ :=
  (((List.range partition.length).filter (fun r => decide (partition.getD r 0 = g))).map
    (fun r => ((List.range ((input.getD r []).length)).filter
      (fun c => decide (getE input r c = gMax input partition g))).length)).sum

/-- The sortedness precondition of the runtime's segment reduction
primitives: the partition vector is non-decreasing, so equal ids occupy
contiguous rows. -/
def sortedPartition (partition : List ℕ) : Prop :=
  List.Sorted (· ≤ ·) partition

/-- The contiguity property the specification states for partition
vectors: between two rows of equal id, every row has that id. -/
def contiguousPartition (partition : List ℕ) : Prop :=
  ∀ k, k < partition.length → ∀ j, j ≤ k → ∀ i, i ≤ j →
    partition.getD i 0 = partition.getD k 0 → partition.getD j 0 = partition.getD i 0

/-- A concrete 2 x 2 tensor used to exercise `gather_in_dim`. -/
def sampleTensor : Tensor ℚ :=
  { shape := [2, 2], entry := fun ix => getE [[1, 2], [3, 4]] (ix.getD 0 0) (ix.getD 1 0) }

/-! ### Generic list lemmas -/

theorem getD_map_of_lt {α β : Type} (f : α → β) (l : List α) {i : ℕ} (hi : i < l.length)
    (d : α) (d' : β) : (l.map f).getD i d' = f (l.getD i d) := by
  rw [List.getD_eq_getElem _ _ (by simpa using hi), List.getD_eq_getElem _ _ hi,
    List.getElem_map]

theorem getD_range_of_lt {n i : ℕ} (hi : i < n) (d : ℕ) : (List.range n).getD i d = i := by
  rw [List.getD_eq_getElem _ _ (by simpa using hi), List.getElem_range]

theorem getD_zipWith_of_lt {α β γ : Type} (f : α → β → γ) (l₁ : List α) (l₂ : List β)
    {i : ℕ} (h₁ : i < l₁.length) (h₂ : i < l₂.length) (d₁ : α) (d₂ : β) (d : γ) :
    (List.zipWith f l₁ l₂).getD i d = f (l₁.getD i d₁) (l₂.getD i d₂) := by
  rw [List.getD_eq_getElem _ _ (by simp [List.length_zipWith]; omega),
    List.getD_eq_getElem _ _ h₁, List.getD_eq_getElem _ _ h₂, List.getElem_zipWith]

theorem foldl_max_init {α : Type} [LinearOrder α] (t : List α) (a b : α) :
    t.foldl max (max a b) = max a (t.foldl max b) := by
  induction t generalizing b with
  | nil => rfl
  | cons c t ih =>
    simp only [List.foldl_cons]
    rw [max_assoc, ih]

theorem listMax_cons {α : Type} [LinearOrder α] [Inhabited α] (x : α) {l : List α}
    (h : l ≠ []) : listMax (x :: l) = max x (listMax l) := by
  match l with
  | [] => exact absurd rfl h
  | y :: t =>
    show (y :: t).foldl max x = max x (t.foldl max y)
    rw [List.foldl_cons, foldl_max_init]

theorem le_listMax {α : Type} [LinearOrder α] [Inhabited α] {x : α} {l : List α}
    (h : x ∈ l) : x ≤ listMax l := by
  induction l with
  | nil => cases h
  | cons a t ih =>
    by_cases ht : t = []
    · subst ht
      rcases List.mem_singleton.mp h with rfl
      exact le_refl _
    · rw [listMax_cons a ht]
      rcases List.mem_cons.mp h with rfl | hx
      · exact le_max_left _ _
      · exact le_trans (ih hx) (le_max_right _ _)

theorem listMax_mem {α : Type} [LinearOrder α] [Inhabited α] {l : List α} (h : l ≠ []) :
    listMax l ∈ l := by
  induction l with
  | nil => exact absurd rfl h
  | cons a t ih =>
    by_cases ht : t = []
    · subst ht; simp [listMax]
    · rw [listMax_cons a ht]
      rcases max_choice a (listMax t) with hc | hc
    
      · rw [hc]; exact List.mem_cons_self _ _
      · rw [hc]; exact List.mem_cons_of_mem _ (ih ht)

theorem listMax_append {α : Type} [LinearOrder α] [Inhabited α] {a b : List α}
    (ha : a ≠ []) (hb : b ≠ []) : listMax (a ++ b) = max (listMax a) (listMax b) := by
  induction a with
  | nil => exact absurd rfl ha
  | cons x t ih =>
    by_cases ht : t = []
    · subst ht
      simp only [List.nil_append, List.singleton_append]
      rw [listMax_cons x hb]
      simp [listMax]
    · have htb : t ++ b ≠ [] := by
        intro hc
        exact ht (List.append_eq_nil.mp hc).1
      rw [List.cons_append, listMax_cons x htb, ih ht, listMax_cons x ht, max_assoc]

theorem flatten_ne_nil {α : Type} {ll : List (List α)} (h0 : ll ≠ [])
    (h1 : ∀ r ∈ ll, r ≠ []) : ll.flatten ≠ [] := by
  match ll with
  | [] => exact absurd rfl h0
  | r :: t =>
    simp only [List.flatten_cons]
    intro hc
    exact h1 r (List.mem_cons_self _ _) (List.append_eq_nil.mp hc).1

theorem listMax_flatten {α : Type} [LinearOrder α] [Inhabited α] {ll : List (List α)}
    (h0 : ll ≠ []) (h1 : ∀ r ∈ ll, r ≠ []) :
    listMax ll.flatten = listMax (ll.map listMax) := by
  induction ll with
  | nil => exact absurd rfl h0
  | cons r t ih =>
    by_cases ht : t = []
    · subst ht; simp [listMax]
    · have hr : r ≠ [] := h1 r (List.mem_cons_self _ _)
      have h1t : ∀ x ∈ t, x ≠ [] := fun x hx => h1 x (List.mem_cons_of_mem _ hx)
      have hft : t.flatten ≠ [] := flatten_ne_nil ht h1t
      have hmt : t.map listMax ≠ [] := by simpa using ht
      rw [List.flatten_cons, listMax_append hr hft, ih ht h1t, List.map_cons,
        listMax_cons _ hmt]

/-! ### Lemmas on segment slices -/

theorem segmentSlice_nil_right {α : Type} (vals : List α) (g : ℕ) :
    segmentSlice vals [] g = [] := by
  simp [segmentSlice]

theorem segmentSlice_nil_left {α : Type} (partition : List ℕ) (g : ℕ) :
    segmentSlice ([] : List α) partition g = [] := by
  simp [segmentSlice]

theorem segmentSlice_cons {α : Type} (v : α) (vs : List α) (p : ℕ) (ps : List ℕ) (g : ℕ) :
    segmentSlice (v :: vs) (p :: ps) g =
      if p = g then v :: segmentSlice vs ps g else segmentSlice vs ps g := by
  simp only [segmentSlice, List.zip_cons_cons, List.filterMap_cons]
  split <;> simp_all

theorem segmentSlice_map {α β : Type} (f : α → β) (vals : List α) (partition : List ℕ)
    (g : ℕ) : segmentSlice (vals.map f) partition g = (segmentSlice vals partition g).map f := by
  induction vals generalizing partition with
  | nil => simp [segmentSlice]
  | cons v vs ih =>
    match partition with
    | [] => simp [segmentSlice]
    | p :: ps =>
      rw [List.map_cons, segmentSlice_cons, segmentSlice_cons]
      split <;> simp [ih]

theorem segmentSlice_zipWith_gatherL {β γ δ : Type} [Inhabited γ] (f : β → γ → δ)
    (vals : List β) (w : List γ) (partition : List ℕ) (g : ℕ)
    (hlen : vals.length = partition.length) :
    segmentSlice (List.zipWith f vals (gatherL w partition)) partition g =
      (segmentSlice vals partition g).map (fun v => f v (w.getD g default)) := by
  induction vals generalizing partition with
  | nil =>
    have : partition = [] := by
      cases partition with
      | nil => rfl
      | cons p ps => simp at hlen
    subst this
    simp [segmentSlice, gatherL]
  | cons v vs ih =>
    match partition with
    | [] => simp at hlen
    | p :: ps =>
      have hgather : gatherL w (p :: ps) = w.getD p default :: gatherL w ps := rfl
      rw [hgather, List.zipWith_cons_cons, segmentSlice_cons, segmentSlice_cons]
      have hlen' : vs.length = ps.length := by simpa using hlen
      by_cases hp : p = g
      · subst hp
        rw [if_pos rfl, if_pos rfl, List.map_cons, ih ps hlen']
      · rw [if_neg hp, if_neg hp]
        exact ih ps hlen'

theorem mem_of_mem_segmentSlice {α : Type} {x : α} {vals : List α} {partition : List ℕ}
    {g : ℕ} (h : x ∈ segmentSlice vals partition g) : x ∈ vals := by
  rcases List.mem_filterMap.mp h with ⟨⟨a, b⟩, hmem, hab⟩
  have hz := List.of_mem_zip hmem
  by_cases hb : b = g
  · rw [show (if (a, b).2 = g then some (a, b).1 else none) = some a from if_pos hb] at hab
    obtain rfl : a = x := Option.some.inj hab
    exact hz.1
  · simp [hb] at hab

theorem getD_mem_segmentSlice {α : Type} (vals : List α) (partition : List ℕ) {i : ℕ}
    (hi : i < vals.length) (hip : i < partition.length) (d : α) :
    vals.getD i d ∈ segmentSlice vals partition (partition.getD i 0) := by
  apply List.mem_filterMap.mpr
  refine ⟨(vals.getD i d, partition.getD i 0), ?_, by simp⟩
  rw [List.getD_eq_getElem _ _ hi, List.getD_eq_getElem _ _ hip]
  apply List.mem_iff_getElem.mpr
  exact ⟨i, by simp [List.length_zip]; omega, List.getElem_zip⟩

theorem exists_index_of_mem_segmentSlice {α : Type} {x : α} {vals : List α}
    {partition : List ℕ} {g : ℕ} (h : x ∈ segmentSlice vals partition g) (d : α) :
    ∃ r, r < vals.length ∧ r < partition.length ∧ partition.getD r 0 = g ∧
      vals.getD r d = x := by
  rcases List.mem_filterMap.mp h with ⟨⟨a, b⟩, hmem, hab⟩
  by_cases hb : b = g
  · rw [show (if (a, b).2 = g then some (a, b).1 else none) = some a from if_pos hb] at hab
    obtain rfl : a = x := Option.some.inj hab
    rcases List.mem_iff_getElem.mp hmem with ⟨r, hr, hget⟩
    have hr₁ : r < vals.length := by simp [List.length_zip] at hr; omega
    have hr₂ : r < partition.length := by simp [List.length_zip] at hr; omega
    rw [List.getElem_zip] at hget
    have hfst : vals[r] = a := congrArg Prod.fst hget
    have hsnd : partition[r] = b := congrArg Prod.snd hget
    refine ⟨r, hr₁, hr₂, ?_, ?_⟩
    · rw [List.getD_eq_getElem _ _ hr₂, hsnd, hb]
    · rw [List.getD_eq_getElem _ _ hr₁, hfst]
  · simp [hb] at hab

theorem segment_max_length {α : Type} [LinearOrder α] [Inhabited α] (vals : List α)
    (partition : List ℕ) : (segment_max vals partition).length = numSegments partition := by
  simp [segment_max]

theorem segment_max_getD {α : Type} [LinearOrder α] [Inhabited α] (vals : List α)
    (partition : List ℕ) {g : ℕ} (hg : g < numSegments partition) (d : α) :
    (segment_max vals partition).getD g d = listMax (segmentSlice vals partition g) := by
  unfold segment_max
  rw [getD_map_of_lt _ _ (by simpa using hg) 0, getD_range_of_lt hg]

theorem segment_sum_getD (vals : List ℝ) (partition : List ℕ) {g : ℕ}
    (hg : g < numSegments partition) (d : ℝ) :
    (segment_sum vals partition).getD g d = (segmentSlice vals partition g).sum := by
  unfold segment_sum
  rw [getD_map_of_lt _ _ (by simpa using hg) 0, getD_range_of_lt hg]

theorem getD_lt_numSegments {partition : List ℕ} {i : ℕ} (hi : i < partition.length) :
    partition.getD i 0 < numSegments partition := by
  have hmem : partition.getD i 0 ∈ partition := by
    rw [List.getD_eq_getElem _ _ hi]
    exact List.getElem_mem _
  exact Nat.lt_succ_of_le (le_listMax hmem)

theorem gatherL_getD {α : Type} [Inhabited α] (vals : List α) (ids : List ℕ) {i : ℕ}
    (hi : i < ids.length) (d : α) :
    (gatherL vals ids).getD i d = vals.getD (ids.getD i 0) default := by
  unfold gatherL
  rw [getD_map_of_lt _ _ hi 0]

theorem gatherL_length {α : Type} [Inhabited α] (vals : List α) (ids : List ℕ) :
    (gatherL vals ids).length = ids.length := by
  simp [gatherL]

/-! ### Sum and counting lemmas -/

theorem sum_map_getD {α : Type} {M : Type} [AddCommMonoid M] (l : List α) (f : α → M)
    (d : α) : (l.map f).sum = ((List.range l.length).map (fun i => f (l.getD i d))).sum := by
  induction l with
  | nil => simp
  | cons a t ih =>
    rw [List.map_cons, List.sum_cons, List.length_cons, List.range_succ_eq_map,
      List.map_cons, List.sum_cons, List.map_map]
    congr 1

theorem sum_map_add_distrib {α : Type} {M : Type} [AddCommMonoid M] (l : List α)
    (f g : α → M) : (l.map (fun x => f x + g x)).sum = (l.map f).sum + (l.map g).sum := by
  induction l with
  | nil => simp
  | cons a t ih =>
    simp only [List.map_cons, List.sum_cons, ih]
    ac_rfl

theorem sum_indicator_range {M : Type} [AddCommMonoid M] {N k : ℕ} (hk : k < N) (c : M) :
    ((List.range N).map (fun g => if k = g then c else 0)).sum = c := by
  induction N with
  | zero => omega
  | succ n ih =>
    rw [List.range_succ, List.map_append, List.sum_append]
    by_cases hkn : k = n
    · subst hkn
      have hz : ((List.range k).map (fun g => if k = g then c else 0)).sum =
          ((List.range k).map (fun _ => (0 : M))).sum := by
        apply congrArg
        apply List.map_congr_left
        intro g hg
        rw [if_neg (by simp at hg; omega)]
      rw [hz]
      simp
    · have hk' : k < n := by omega
      rw [ih hk']
      simp [hkn]

theorem sum_fiber {β : Type} {M : Type} [AddCommMonoid M] (l : List β) (key : β → ℕ)
    (f : β → M) (N : ℕ) (h : ∀ x ∈ l, key x < N) :
    (l.map f).sum =
      ((List.range N).map
        (fun g => ((l.filter (fun x => decide (key x = g))).map f).sum)).sum := by
  induction l with
  | nil => simp
  | cons a t ih =>
    have ha : key a < N := h a (List.mem_cons_self _ _)
    have ht : ∀ x ∈ t, key x < N := fun x hx => h x (List.mem_cons_of_mem _ hx)
    rw [List.map_cons, List.sum_cons, ih ht]
    have hsplit : ∀ g : ℕ, (((a :: t).filter (fun x => decide (key x = g))).map f).sum =
        (if key a = g then f a else 0) +
          ((t.filter (fun x => decide (key x = g))).map f).sum := by
      intro g
      rw [List.filter_cons]
      by_cases hg : key a = g
      · rw [if_pos hg, if_pos (by simp [hg]), List.map_cons, List.sum_cons]
      · rw [if_neg hg, if_neg (by simp [hg]), zero_add]
    have : ((List.range N).map
        (fun g => (((a :: t).filter (fun x => decide (key x = g))).map f).sum)).sum =
        ((List.range N).map (fun g => (if key a = g then f a else 0) +
          ((t.filter (fun x => decide (key x = g))).map f).sum)).sum := by
      congr 1
      exact List.map_congr_left (fun g _ => hsplit g)
    rw [this, sum_map_add_distrib, sum_indicator_range ha]

theorem sum_indicator_eq_length_filter {α : Type} (l : List α) (p : α → Bool) :
    (l.map (fun x => if p x then 1 else 0)).sum = (l.filter p).length := by
  induction l with
  | nil => simp
  | cons a t ih =>
    rw [List.map_cons, List.sum_cons, List.filter_cons]
    by_cases hp : p a
    · rw [if_pos hp, if_pos hp, List.length_cons, ih]
      omega
    · rw [if_neg (by simp [hp]), if_neg (by simp [hp]), ih]
      omega

theorem length_le_sum_of_one_le (l : List ℕ) (h : ∀ x ∈ l, 1 ≤ x) :
    l.length ≤ l.sum := by
  induction l with
  | nil => simp
  | cons a t ih =>
    have := h a (List.mem_cons_self _ _)
    have := ih (fun x hx => h x (List.mem_cons_of_mem _ hx))
    simp only [List.length_cons, List.sum_cons]
    omega

theorem all_one_of_sum_eq_length (l : List ℕ) (h1 : ∀ x ∈ l, 1 ≤ x)
    (h : l.sum = l.length) : ∀ x ∈ l, x = 1 := by
  induction l with
  | nil => simp
  | cons a t ih =>
    have ha : 1 ≤ a := h1 a (List.mem_cons_self _ _)
    have h1t : ∀ x ∈ t, 1 ≤ x := fun x hx => h1 x (List.mem_cons_of_mem _ hx)
    have hlen : t.length ≤ t.sum := length_le_sum_of_one_le t h1t
    simp only [List.sum_cons, List.length_cons] at h
    have ha1 : a = 1 := by omega
    have hts : t.sum = t.length := by omega
    intro x hx
    rcases List.mem_cons.mp hx with rfl | hx
    · exact ha1
    · exact ih h1t hts x hx

theorem countTrue_eq_sum_positions (l : List Bool) :
    countTrue l = ((List.range l.length).map (fun j => if l.getD j false then 1 else 0)).sum := by
  unfold countTrue
  rw [sum_map_getD _ _ false]

/-! ### A unique `true` determines `findIdx` -/

theorem findIdx_id_unique (l : List Bool) (c : ℕ) (hc : c < l.length)
    (ht : l.getD c false = true) (hu : ∀ j, j < l.length → l.getD j false = true → j = c) :
    l.findIdx id = c := by
  induction l generalizing c with
  | nil => simp at hc
  | cons b t ih =>
    cases b with
    | true =>
      have h0 : (0 : ℕ) = c := hu 0 (by simp) (by simp)
      rw [List.findIdx_cons]
      exact h0
    | false =>
      match c with
      | 0 => rw [List.getD_cons_zero] at ht; exact absurd ht (by simp)
      | c + 1 =>
        rw [List.findIdx_cons]
        have hc' : c < t.length := by simpa using hc
        have ht' : t.getD c false = true := by simpa using ht
        have hu' : ∀ j, j < t.length → t.getD j false = true → j = c := by
          intro j hj hjt
          have := hu (j + 1) (by simpa using hj) (by simpa using hjt)
          omega
        have : List.findIdx id t = c := ih c hc' ht' hu'
        simp [this]

/-! ### Sorted partitions -/

theorem sorted_getD_mono {l : List ℕ} (h : List.Sorted (· ≤ ·) l) {a b : ℕ}
    (hab : a ≤ b) (hb : b < l.length) : l.getD a 0 ≤ l.getD b 0 := by
  rcases Nat.lt_or_ge a b with hlt | hge
  · rw [List.getD_eq_getElem _ _ (by omega), List.getD_eq_getElem _ _ hb]
    exact List.pairwise_iff_getElem.mp h a b (by omega) hb hlt
  · have : a = b := by omega
    subst this
    exact le_refl _

theorem filter_range_eq_map_of_mono {n N : ℕ} {p : ℕ → Bool} {F : ℕ → ℕ}
    (hmono : ∀ g h, g < h → h < N → F g < F h)
    (hmem : ∀ x, (x < n ∧ p x = true) ↔ ∃ g, g < N ∧ x = F g) :
    (List.range n).filter p = (List.range N).map F := by
  have hnd₁ : ((List.range n).filter p).Nodup :=
    ((List.sorted_lt_range n).sublist (List.filter_sublist _)).nodup
  have hsorted₂ : List.Sorted (· < ·) ((List.range N).map F) := by
    apply List.pairwise_map.mpr
    apply List.Pairwise.imp_of_mem ?_ (List.sorted_lt_range N)
    intro g h hg hh hlt
    exact hmono g h hlt (by simpa using hh)
  have hnd₂ : ((List.range N).map F).Nodup := hsorted₂.nodup
  apply List.eq_of_perm_of_sorted ((List.perm_ext_iff_of_nodup hnd₁ hnd₂).mpr ?_)
    (((List.sorted_lt_range n).sublist (List.filter_sublist _)).imp le_of_lt)
    (hsorted₂.imp le_of_lt)
  intro x
  rw [List.mem_filter, List.mem_range]
  constructor
  · intro hx
    rcases (hmem x).mp hx with ⟨g, hg, rfl⟩
    exact List.mem_map.mpr ⟨g, by simpa using hg, rfl⟩
  · intro hx
    rcases List.mem_map.mp hx with ⟨g, hg, rfl⟩
    exact (hmem (F g)).mpr ⟨g, by simpa using hg, rfl⟩

/-! ### The gathered segment maximum is the group maximum -/

theorem listMax_slice_rowmax {α : Type} [LinearOrder α] [Inhabited α]
    (input : List (List α)) (partition : List ℕ) (g : ℕ)
    (hlen : input.length = partition.length)
    (hrow : ∀ row ∈ input, row ≠ [])
    (hg : ∃ i, i < partition.length ∧ partition.getD i 0 = g) :
    listMax (segmentSlice (input.map listMax) partition g) = gMax input partition g := by
  rcases hg with ⟨i, hi, hig⟩
  have hslice : segmentSlice (input.map listMax) partition g
      = (segmentSlice input partition g).map listMax := segmentSlice_map _ _ _ _
  have hmem := getD_mem_segmentSlice input partition (by omega) hi []
  rw [hig] at hmem
  have hne : segmentSlice input partition g ≠ [] := List.ne_nil_of_mem hmem
  have hrows : ∀ r ∈ segmentSlice input partition g, r ≠ [] :=
    fun r hr => hrow r (mem_of_mem_segmentSlice hr)
  rw [hslice, gMax, listMax_flatten hne hrows]

theorem isMaxMatrix_length (input : List (List ℚ)) (partition : List ℕ) :
    (isMaxMatrix input partition).length = min input.length partition.length := by
  simp [isMaxMatrix, gatherL]

theorem isMaxMatrix_getD_row (input : List (List ℚ)) (partition : List ℕ) {n m i : ℕ}
    (hn : input.length = n) (hpn : partition.length = n)
    (hm : ∀ row ∈ input, row.length = m) (hm0 : 0 < m) (hi : i < n) :
    (isMaxMatrix input partition).getD i [] =
      (input.getD i []).map
        (fun x => decide (x = gMax input partition (partition.getD i 0))) := by
  unfold isMaxMatrix
  rw [getD_zipWith_of_lt _ _ _ (by omega) (by rw [gatherL_length]; omega) [] default []]
  rw [gatherL_getD _ _ (by omega) default]
  rw [segment_max_getD _ _ (getD_lt_numSegments (by omega)) default]
  rw [listMax_slice_rowmax input partition _ (by omega)
    (fun row hrow => by have := hm row hrow; intro hc; rw [hc] at this; simp at this; omega)
    ⟨i, by omega, rfl⟩]

theorem input_row_length {α : Type} {input : List (List α)} {n m i : ℕ}
    (hn : input.length = n) (hm : ∀ row ∈ input, row.length = m) (hi : i < n) :
    (input.getD i []).length = m := by
  apply hm
  rw [List.getD_eq_getElem _ _ (by omega)]
  exact List.getElem_mem _

theorem countTrue_isMax_row (input : List (List ℚ)) (partition : List ℕ) {n m i : ℕ}
    (hn : input.length = n) (hpn : partition.length = n)
    (hm : ∀ row ∈ input, row.length = m) (hm0 : 0 < m) (hi : i < n) :
    countTrue ((isMaxMatrix input partition).getD i []) =
      ((List.range m).filter
        (fun j => decide (getE input i j = gMax input partition (partition.getD i 0)))).length := by
  rw [isMaxMatrix_getD_row input partition hn hpn hm hm0 hi]
  unfold countTrue
  rw [List.map_map]
  rw [sum_map_getD _ _ default]
  rw [input_row_length hn hm hi]
  rw [← sum_indicator_eq_length_filter]
  congr 1

/-! ### Total max-cell count, grouped by partition id -/

theorem total_count_eq (input : List (List ℚ)) (partition : List ℕ) {n m : ℕ}
    (hn : input.length = n) (hpn : partition.length = n)
    (hm : ∀ row ∈ input, row.length = m) (hm0 : 0 < m) :
    ((isMaxMatrix input partition).map countTrue).sum =
      ((List.range (numSegments partition)).map
        (fun g => maxCellCount input partition g)).sum := by
  rw [sum_map_getD _ _ []]
  rw [show (isMaxMatrix input partition).length = n by rw [isMaxMatrix_length]; omega]
  have hstep : ((List.range n).map
      (fun i => countTrue ((isMaxMatrix input partition).getD i []))).sum =
      ((List.range n).map (fun i => ((List.range m).filter
        (fun j => decide (getE input i j =
          gMax input partition (partition.getD i 0)))).length)).sum := by
    congr 1
    apply List.map_congr_left
    intro i hi
    exact countTrue_isMax_row input partition hn hpn hm hm0 (by simpa using hi)
  rw [hstep]
  rw [sum_fiber (List.range n) (fun i => partition.getD i 0) _ (numSegments partition)
    (fun i hi => getD_lt_numSegments (by rw [hpn]; simpa using hi))]
  congr 1
  apply List.map_congr_left
  intro g _
  unfold maxCellCount
  rw [hpn]
  congr 1
  apply List.map_congr_left
  intro i hif
  have hig : partition.getD i 0 = g := by
    have := (List.mem_filter.mp hif).2
    simpa using this
  have hin : i < n := by
    have := (List.mem_filter.mp hif).1
    simpa using this
  rw [hig, input_row_length hn hm hin]

/-! ### Counting max cells per group -/

theorem two_le_length_of_mem_ne {α : Type} {l : List α} {a b : α} (hnd : l.Nodup)
    (ha : a ∈ l) (hb : b ∈ l) (hne : a ≠ b) : 2 ≤ l.length := by
  rcases List.append_of_mem ha with ⟨s, t, rfl⟩
  have hb' : b ∈ s ∨ b ∈ t := by
    rcases List.mem_append.mp hb with hs | hst
    · exact Or.inl hs
    · rcases List.mem_cons.mp hst with rfl | ht
      · exact absurd rfl (Ne.symm hne)
      · exact Or.inr ht
  rcases hb' with hs | ht
  · have := List.length_pos.mpr (List.ne_nil_of_mem hs)
    simp only [List.length_append, List.length_cons]
    omega
  · have := List.length_pos.mpr (List.ne_nil_of_mem ht)
    simp only [List.length_append, List.length_cons]
    omega

theorem two_le_sum_of_mem_ne {l : List ℕ} {f : ℕ → ℕ} {a b : ℕ} (hnd : l.Nodup)
    (ha : a ∈ l) (hb : b ∈ l) (hne : a ≠ b) (hfa : 1 ≤ f a) (hfb : 1 ≤ f b) :
    2 ≤ (l.map f).sum := by
  rcases List.append_of_mem ha with ⟨s, t, rfl⟩
  have hsum : ((s ++ a :: t).map f).sum = (s.map f).sum + (f a + (t.map f).sum) := by
    rw [List.map_append, List.sum_append, List.map_cons, List.sum_cons]
  have hb' : b ∈ s ∨ b ∈ t := by
    rcases List.mem_append.mp hb with hs | hst
    · exact Or.inl hs
    · rcases List.mem_cons.mp hst with rfl | ht
      · exact absurd rfl (Ne.symm hne)
      · exact Or.inr ht
  rcases hb' with hs | ht
  · have h1 : f b ≤ (s.map f).sum :=
      List.single_le_sum (fun x _ => Nat.zero_le x) _ (List.mem_map_of_mem f hs)
    omega
  · have h1 : f b ≤ (t.map f).sum :=
      List.single_le_sum (fun x _ => Nat.zero_le x) _ (List.mem_map_of_mem f ht)
    omega

theorem le_sum_map_of_mem {α : Type} {l : List α} (f : α → ℕ) {a : α} (ha : a ∈ l) :
    f a ≤ (l.map f).sum :=
  List.single_le_sum (fun x _ => Nat.zero_le x) (f a) (List.mem_map_of_mem f ha)

theorem maxCell_exists_of_count_pos {input : List (List ℚ)} {partition : List ℕ} {g : ℕ}
    (h : 0 < maxCellCount input partition g) :
    ∃ rc : ℕ × ℕ, maxCell input partition g rc := by
  unfold maxCellCount at h
  have hterm : ∃ x ∈ ((List.range partition.length).filter
      (fun r => decide (partition.getD r 0 = g))).map
        (fun r => ((List.range ((input.getD r []).length)).filter
          (fun c => decide (getE input r c = gMax input partition g))).length), 0 < x := by
    by_contra hc
    push_neg at hc
    have : (((List.range partition.length).filter
        (fun r => decide (partition.getD r 0 = g))).map
          (fun r => ((List.range ((input.getD r []).length)).filter
            (fun c => decide (getE input r c = gMax input partition g))).length)).sum = 0 :=
      List.sum_eq_zero (fun x hx => by have := hc x hx; omega)
    omega
  rcases hterm with ⟨x, hxmem, hxpos⟩
  rcases List.mem_map.mp hxmem with ⟨r, hrmem, rfl⟩
  have hr := List.mem_filter.mp hrmem
  have hrn : r < partition.length := by simpa using hr.1
  have hrg : partition.getD r 0 = g := of_decide_eq_true hr.2
  have hcne : (List.range ((input.getD r []).length)).filter
      (fun c => decide (getE input r c = gMax input partition g)) ≠ [] := by
    intro hc
    rw [hc] at hxpos
    simp at hxpos
  rcases List.exists_mem_of_ne_nil _ hcne with ⟨c, hcmem⟩
  have hcf := List.mem_filter.mp hcmem
  have hcm : c < (input.getD r []).length := by simpa using hcf.1
  have hcv : getE input r c = gMax input partition g := of_decide_eq_true hcf.2
  exact ⟨(r, c), hrn, hcm, hrg, hcv⟩

theorem maxCell_mem_inner_filter {input : List (List ℚ)} {partition : List ℕ} {g : ℕ}
    {rc : ℕ × ℕ} (h : maxCell input partition g rc) :
    rc.2 ∈ (List.range ((input.getD rc.1 []).length)).filter
      (fun c => decide (getE input rc.1 c = gMax input partition g)) := by
  rcases h with ⟨h1, h2, h3, h4⟩
  exact List.mem_filter.mpr ⟨by simpa using h2, by simpa using h4⟩

theorem maxCell_mem_outer_filter {input : List (List ℚ)} {partition : List ℕ} {g : ℕ}
    {rc : ℕ × ℕ} (h : maxCell input partition g rc) :
    rc.1 ∈ (List.range partition.length).filter (fun r => decide (partition.getD r 0 = g)) := by
  rcases h with ⟨h1, h2, h3, h4⟩
  exact List.mem_filter.mpr ⟨by simpa using h1, by simpa using h3⟩

theorem one_le_count_of_maxCell {input : List (List ℚ)} {partition : List ℕ} {g : ℕ}
    {rc : ℕ × ℕ} (h : maxCell input partition g rc) :
    1 ≤ maxCellCount input partition g := by
  unfold maxCellCount
  have hin := maxCell_mem_inner_filter h
  have hlen : 1 ≤ ((List.range ((input.getD rc.1 []).length)).filter
      (fun c => decide (getE input rc.1 c = gMax input partition g))).length := by
    have := List.length_pos.mpr (List.ne_nil_of_mem hin)
    omega
  have hout := maxCell_mem_outer_filter h
  calc 1 ≤ ((List.range ((input.getD rc.1 []).length)).filter
        (fun c => decide (getE input rc.1 c = gMax input partition g))).length := hlen
    _ ≤ _ := le_sum_map_of_mem
        (fun r => ((List.range ((input.getD r []).length)).filter
          (fun c => decide (getE input r c = gMax input partition g))).length) hout

theorem maxCell_unique_of_count_one {input : List (List ℚ)} {partition : List ℕ} {g : ℕ}
    (h1 : maxCellCount input partition g = 1) {rc rc' : ℕ × ℕ}
    (ha : maxCell input partition g rc) (hb : maxCell input partition g rc') : rc = rc' := by
  by_contra hne
  rcases Prod.mk.injEq rc.1 rc.2 rc'.1 rc'.2 ▸ hne with _
  by_cases hr : rc.1 = rc'.1
  · have hc : rc.2 ≠ rc'.2 := by
      intro hc
      exact hne (Prod.ext hr hc)
    have hin1 := maxCell_mem_inner_filter ha
    have hin2 := maxCell_mem_inner_filter hb
    rw [← hr] at hin2
    have hnd : ((List.range ((input.getD rc.1 []).length)).filter
        (fun c => decide (getE input rc.1 c = gMax input partition g))).Nodup :=
      (List.nodup_range _).filter _
    have h2 : 2 ≤ ((List.range ((input.getD rc.1 []).length)).filter
        (fun c => decide (getE input rc.1 c = gMax input partition g))).length :=
      two_le_length_of_mem_ne hnd hin1 hin2 hc
    have hsum : 2 ≤ maxCellCount input partition g := by
      unfold maxCellCount
      calc 2 ≤ _ := h2
        _ ≤ _ := le_sum_map_of_mem
            (fun r => ((List.range ((input.getD r []).length)).filter
              (fun c => decide (getE input r c = gMax input partition g))).length)
            (maxCell_mem_outer_filter ha)
    omega
  · have hout1 := maxCell_mem_outer_filter ha
    have hout2 := maxCell_mem_outer_filter hb
    have hnd : ((List.range partition.length).filter
        (fun r => decide (partition.getD r 0 = g))).Nodup :=
      (List.nodup_range _).filter _
    have h1a : 1 ≤ ((List.range ((input.getD rc.1 []).length)).filter
        (fun c => decide (getE input rc.1 c = gMax input partition g))).length := by
      have := List.length_pos.mpr (List.ne_nil_of_mem (maxCell_mem_inner_filter ha))
      omega
    have h1b : 1 ≤ ((List.range ((input.getD rc'.1 []).length)).filter
        (fun c => decide (getE input rc'.1 c = gMax input partition g))).length := by
      have := List.length_pos.mpr (List.ne_nil_of_mem (maxCell_mem_inner_filter hb))
      omega
    have hsum : 2 ≤ maxCellCount input partition g := by
      unfold maxCellCount
      exact two_le_sum_of_mem_ne hnd hout1 hout2 hr h1a h1b
    omega

theorem maxCellCount_eq_zero_of_absent {input : List (List ℚ)} {partition : List ℕ} {g : ℕ}
    (h : ∀ i, i < partition.length → partition.getD i 0 ≠ g) :
    maxCellCount input partition g = 0 := by
  unfold maxCellCount
  have : (List.range partition.length).filter (fun r => decide (partition.getD r 0 = g)) = [] := by
    apply List.filter_eq_nil_iff.mpr
    intro a ha
    simp only [decide_eq_true_eq]
    exact h a (by simpa using ha)
  rw [this]
  rfl

/-! ### Row selection -/

theorem isMax_row_any (input : List (List ℚ)) (partition : List ℕ) {n m i : ℕ}
    (hn : input.length = n) (hpn : partition.length = n)
    (hm : ∀ row ∈ input, row.length = m) (hm0 : 0 < m) (hi : i < n) :
    (((isMaxMatrix input partition).getD i []).any id = true) ↔
      ∃ j, j < m ∧ getE input i j = gMax input partition (partition.getD i 0) := by
  rw [isMaxMatrix_getD_row input partition hn hpn hm hm0 hi]
  constructor
  · intro h
    rcases List.any_eq_true.mp h with ⟨b, hbmem, hb⟩
    rcases List.mem_map.mp hbmem with ⟨x, hxmem, rfl⟩
    have hx : x = gMax input partition (partition.getD i 0) := by
      simpa using hb
    rcases List.mem_iff_getElem.mp hxmem with ⟨j, hj, hjx⟩
    refine ⟨j, by rw [input_row_length hn hm hi] at hj; exact hj, ?_⟩
    rw [getE, List.getD_eq_getElem _ _ hj, hjx, hx]
  · rintro ⟨j, hj, hval⟩
    apply List.any_eq_true.mpr
    have hj' : j < (input.getD i []).length := by rw [input_row_length hn hm hi]; exact hj
    refine ⟨decide ((input.getD i [])[j] = gMax input partition (partition.getD i 0)),
      List.mem_map_of_mem _ (List.getElem_mem _), ?_⟩
    have : (input.getD i [])[j] = gMax input partition (partition.getD i 0) := by
      rw [← List.getD_eq_getElem _ default hj']
      exact hval
    simp only [id_eq, decide_eq_true_eq]
    exact this

theorem maxCellCount_pos_of_present (input : List (List ℚ)) (partition : List ℕ)
    {n m : ℕ} (hn : input.length = n) (hpn : partition.length = n)
    (hm : ∀ row ∈ input, row.length = m) (hm0 : 0 < m) {g : ℕ}
    (hg : ∃ i, i < partition.length ∧ partition.getD i 0 = g) :
    1 ≤ maxCellCount input partition g := by
  rcases hg with ⟨i, hi, hig⟩
  have hrow : ∀ row ∈ input, row ≠ [] := by
    intro row hrowmem hcon
    have := hm row hrowmem
    rw [hcon] at this
    simp at this
    omega
  have hmemslice := getD_mem_segmentSlice input partition (by omega) hi []
  rw [hig] at hmemslice
  have hne : segmentSlice input partition g ≠ [] := List.ne_nil_of_mem hmemslice
  have hrows : ∀ r ∈ segmentSlice input partition g, r ≠ [] :=
    fun r hr => hrow r (mem_of_mem_segmentSlice hr)
  have hflatne : (segmentSlice input partition g).flatten ≠ [] := flatten_ne_nil hne hrows
  have hmemflat : gMax input partition g ∈ (segmentSlice input partition g).flatten :=
    listMax_mem hflatne
  rcases List.mem_flatten.mp hmemflat with ⟨row, hrowm, hvalm⟩
  rcases exists_index_of_mem_segmentSlice hrowm [] with ⟨r, hr1, hr2, hrg, hroweq⟩
  rcases List.mem_iff_getElem.mp hvalm with ⟨c, hc, hcv⟩
  apply @one_le_count_of_maxCell input partition g (r, c)
  refine ⟨hr2, by rw [hroweq]; exact hc, hrg, ?_⟩
  show (input.getD r []).getD c default = gMax input partition g
  rw [hroweq, List.getD_eq_getElem _ _ hc, hcv]

/-! ### Sums of 0/1 lists -/

theorem sum_le_length_of_le_one (l : List ℕ) (h : ∀ x ∈ l, x ≤ 1) : l.sum ≤ l.length := by
  induction l with
  | nil => simp
  | cons a t ih =>
    have := h a (List.mem_cons_self _ _)
    have := ih (fun x hx => h x (List.mem_cons_of_mem _ hx))
    simp only [List.sum_cons, List.length_cons]
    omega

theorem sum_lt_length_of_mem_zero (l : List ℕ) (h : ∀ x ∈ l, x ≤ 1) {x₀ : ℕ}
    (hx₀ : x₀ ∈ l) (hz : x₀ = 0) : l.sum < l.length := by
  rcases List.append_of_mem hx₀ with ⟨s, t, rfl⟩
  have hs : s.sum ≤ s.length :=
    sum_le_length_of_le_one s (fun x hx => h x (List.mem_append_left _ hx))
  have ht : t.sum ≤ t.length :=
    sum_le_length_of_le_one t
      (fun x hx => h x (List.mem_append_right _ (List.mem_cons_of_mem _ hx)))
  simp only [List.sum_append, List.length_append, List.sum_cons, List.length_cons, hz]
  omega

/-! ### The assertion vs. the per-group cell counts -/

theorem assert_true_iff_counts (input : List (List ℚ)) (partition : List ℕ) {n m : ℕ}
    (hn : input.length = n) (hpn : partition.length = n)
    (hm : ∀ row ∈ input, row.length = m) (hm0 : 0 < m)
    (hgapless : ∀ g, g < numSegments partition →
      ∃ i, i < partition.length ∧ partition.getD i 0 = g) :
    segment_argmax_assert input partition = true ↔
      ∀ g, g < numSegments partition → maxCellCount input partition g = 1 := by
  unfold segment_argmax_assert
  rw [decide_eq_true_eq]
  rw [total_count_eq input partition hn hpn hm hm0]
  constructor
  · intro h g hg
    have hall : ∀ x ∈ (List.range (numSegments partition)).map
        (fun g => maxCellCount input partition g), 1 ≤ x := by
      intro x hx
      rcases List.mem_map.mp hx with ⟨g', hg', rfl⟩
      exact maxCellCount_pos_of_present input partition hn hpn hm hm0
        (hgapless g' (by simpa using hg'))
    have hlen : ((List.range (numSegments partition)).map
        (fun g => maxCellCount input partition g)).length = numSegments partition := by
      simp
    have := all_one_of_sum_eq_length _ hall (by omega) (maxCellCount input partition g)
      (List.mem_map_of_mem _ (List.mem_range.mpr hg))
    exact this
  · intro h
    have : ((List.range (numSegments partition)).map
        (fun g => maxCellCount input partition g)).sum =
        ((List.range (numSegments partition)).map (fun _ => 1)).sum := by
      congr 1
      apply List.map_congr_left
      intro g hg
      exact h g (by simpa using hg)
    rw [this]
    simp

/-! ### The core of `segment_argmax` under unique group maxima -/

theorem segment_argmax_core_spec (input : List (List ℚ)) (partition : List ℕ) {n m : ℕ}
    (hn : input.length = n) (hpn : partition.length = n)
    (hm : ∀ row ∈ input, row.length = m) (hm0 : 0 < m)
    (hsorted : sortedPartition partition)
    (huniq : ∀ g, g < numSegments partition → maxCellCount input partition g = 1) :
    (segment_argmax_core input partition).1.length = numSegments partition ∧
    (segment_argmax_core input partition).2.length = numSegments partition ∧
    ∀ g, g < numSegments partition →
      maxCell input partition g
        ((segment_argmax_core input partition).1.getD g 0,
          (segment_argmax_core input partition).2.getD g 0) := by
  have hcell' : ∀ g, ∃ rc : ℕ × ℕ, g < numSegments partition →
      maxCell input partition g rc := by
    intro g
    by_cases hg : g < numSegments partition
    · rcases @maxCell_exists_of_count_pos input partition g
        (by rw [huniq g hg]; omega) with ⟨rc, hrc⟩
      exact ⟨rc, fun _ => hrc⟩
    · exact ⟨(0, 0), fun h => absurd h hg⟩
  choose cell hcellspec using hcell'
  have huniq2 : ∀ g, g < numSegments partition → ∀ rc : ℕ × ℕ,
      maxCell input partition g rc → rc = cell g :=
    fun g hg rc h => maxCell_unique_of_count_one (huniq g hg) h (hcellspec g hg)
  have hlenIM : (isMaxMatrix input partition).length = n := by
    rw [isMaxMatrix_length]; omega
  have hlistlen : ((isMaxMatrix input partition).map (fun r => r.any id)).length = n := by
    rw [List.length_map, hlenIM]
  have hrowsel : (segment_argmax_core input partition).1 =
      (List.range n).filter
        (fun i => ((isMaxMatrix input partition).map (fun r => r.any id)).getD i false) := by
    show whereTrue ((isMaxMatrix input partition).map (fun r => r.any id)) = _
    unfold whereTrue
    rw [hlistlen]
  have hpred : ∀ i, i < n →
      ((isMaxMatrix input partition).map (fun r => r.any id)).getD i false =
        ((isMaxMatrix input partition).getD i []).any id :=
    fun i hi => getD_map_of_lt _ _ (by omega) [] false
  have hF : (List.range n).filter
      (fun i => ((isMaxMatrix input partition).map (fun r => r.any id)).getD i false) =
      (List.range (numSegments partition)).map (fun g => (cell g).1) := by
    apply filter_range_eq_map_of_mono
    · intro g h hgh hh
      have hcg := hcellspec g (by omega)
      have hch := hcellspec h hh
      by_contra hle
      push_neg at hle
      have hmono := sorted_getD_mono hsorted hle hcg.1
      rw [hch.2.2.1, hcg.2.2.1] at hmono
      omega
    · intro x
      constructor
      · rintro ⟨hx, hpx⟩
        rw [hpred x hx] at hpx
        rcases (isMax_row_any input partition hn hpn hm hm0 hx).mp hpx with ⟨j, hj, hval⟩
        have hg : partition.getD x 0 < numSegments partition :=
          getD_lt_numSegments (by omega)
        have hmc : maxCell input partition (partition.getD x 0) (x, j) :=
          ⟨by omega, by rw [input_row_length hn hm hx]; exact hj, rfl, hval⟩
        have hxeq := huniq2 _ hg _ hmc
        exact ⟨partition.getD x 0, hg, by rw [← hxeq]⟩
      · rintro ⟨g, hg, rfl⟩
        have hcg := hcellspec g hg
        have hx : (cell g).1 < n := by have := hcg.1; omega
        refine ⟨hx, ?_⟩
        rw [hpred _ hx]
        apply (isMax_row_any input partition hn hpn hm hm0 hx).mpr
        refine ⟨(cell g).2, ?_, ?_⟩
        · have := hcg.2.1
          rw [input_row_length hn hm hx] at this
          exact this
        · rw [hcg.2.2.1]
          exact hcg.2.2.2
  have hrows_eq : (segment_argmax_core input partition).1 =
      (List.range (numSegments partition)).map (fun g => (cell g).1) := hrowsel.trans hF
  have hlen1 : (segment_argmax_core input partition).1.length = numSegments partition := by
    rw [hrows_eq]; simp
  have hcols_eq : (segment_argmax_core input partition).2 =
      (gatherL (isMaxMatrix input partition) (segment_argmax_core input partition).1).map
        argmaxBool := rfl
  have hlen2 : (segment_argmax_core input partition).2.length = numSegments partition := by
    rw [hcols_eq, List.length_map, gatherL_length, hlen1]
  refine ⟨hlen1, hlen2, ?_⟩
  intro g hg
  have hcg := hcellspec g hg
  have hrowlt : (cell g).1 < n := by have := hcg.1; omega
  have hxr : (segment_argmax_core input partition).1.getD g 0 = (cell g).1 := by
    rw [hrows_eq, getD_map_of_lt _ _ (by simpa using hg) 0 0, getD_range_of_lt hg]
  have hxc : (segment_argmax_core input partition).2.getD g 0 =
      argmaxBool ((isMaxMatrix input partition).getD ((cell g).1) []) := by
    rw [hcols_eq]
    rw [getD_map_of_lt argmaxBool _ (by rw [gatherL_length, hlen1]; exact hg) [] 0]
    rw [gatherL_getD _ _ (by rw [hlen1]; exact hg) []]
    rw [show (default : List Bool) = [] from rfl]
    rw [hxr]
  have hargmax : argmaxBool ((isMaxMatrix input partition).getD ((cell g).1) []) =
      (cell g).2 := by
    rw [isMaxMatrix_getD_row input partition hn hpn hm hm0 hrowlt, hcg.2.2.1]
    have hrowlen : (input.getD ((cell g).1) []).length = m := input_row_length hn hm hrowlt
    have hcellc : (cell g).2 < m := by
      have := hcg.2.1
      rw [hrowlen] at this
      exact this
    have htr : ((input.getD ((cell g).1) []).map
        (fun x => decide (x = gMax input partition g))).getD ((cell g).2) false = true := by
      rw [getD_map_of_lt _ _ (by rw [hrowlen]; exact hcellc) default false]
      exact decide_eq_true hcg.2.2.2
    have hmaplen : ((input.getD ((cell g).1) []).map
        (fun x => decide (x = gMax input partition g))).length = m := by
      rw [List.length_map, hrowlen]
    have huniqj : ∀ j, j < ((input.getD ((cell g).1) []).map
        (fun x => decide (x = gMax input partition g))).length →
        ((input.getD ((cell g).1) []).map
          (fun x => decide (x = gMax input partition g))).getD j false = true →
        j = (cell g).2 := by
      intro j hj hjt
      rw [hmaplen] at hj
      rw [getD_map_of_lt _ _ (by rw [hrowlen]; exact hj) default false] at hjt
      have hval : getE input ((cell g).1) j = gMax input partition g :=
        of_decide_eq_true hjt
      have hmc : maxCell input partition g ((cell g).1, j) :=
        ⟨hcg.1, by rw [hrowlen]; exact hj, hcg.2.2.1, hval⟩
      exact congrArg Prod.snd (huniq2 g hg _ hmc)
    have hany : ((input.getD ((cell g).1) []).map
        (fun x => decide (x = gMax input partition g))).any id = true := by
      apply List.any_eq_true.mpr
      have hc' : (cell g).2 < ((input.getD ((cell g).1) []).map
          (fun x => decide (x = gMax input partition g))).length := by
        rw [hmaplen]; exact hcellc
      refine ⟨((input.getD ((cell g).1) []).map
        (fun x => decide (x = gMax input partition g)))[(cell g).2], List.getElem_mem _, ?_⟩
      have hval : ((input.getD ((cell g).1) []).map
          (fun x => decide (x = gMax input partition g)))[(cell g).2] = true := by
        rw [← List.getD_eq_getElem _ false hc']
        exact htr
      rw [hval]
      rfl
    unfold argmaxBool
    rw [if_pos hany]
    exact findIdx_id_unique _ _ (by rw [hmaplen]; exact hcellc) htr huniqj
  rw [hxr, hxc, hargmax]
  exact hcg

/-! ### Claim C2 -/

/-- Claim C2: for a 2-D input of shape `[n, m]` and a partition vector whose
equal ids occupy contiguous rows (realized here by the sortedness
precondition of the runtime's segment primitives, which implies the stated
contiguity) such that within each partition group exactly one cell attains
the group's maximum value, `segment_argmax` succeeds and returns row and
column index vectors with one entry per group in increasing id order: entry
`g` names the row containing group `g`'s unique maximal cell and the column
of that cell within that row. -/
theorem segment_argmax_spec (input : List (List ℚ)) (partition : List ℕ) (n m : ℕ)
    (hn : input.length = n) (hpn : partition.length = n)
    (hm : ∀ row ∈ input, row.length = m) (hm0 : 0 < m)
    (hsorted : sortedPartition partition) (hcontig : contiguousPartition partition)
    (huniq : ∀ g, g < numSegments partition → maxCellCount input partition g = 1) :
    ∃ row_indices col_indices : List ℕ,
      segment_argmax input partition = some (row_indices, col_indices) ∧
      row_indices.length = numSegments partition ∧
      col_indices.length = numSegments partition ∧
      ∀ g, g < numSegments partition →
        maxCell input partition g (row_indices.getD g 0, col_indices.getD g 0) := by
  have hgapless : ∀ g, g < numSegments partition →
      ∃ i, i < partition.length ∧ partition.getD i 0 = g := by
    intro g hg
    rcases @maxCell_exists_of_count_pos input partition g
      (by rw [huniq g hg]; omega) with ⟨rc, hrc⟩
    exact ⟨rc.1, hrc.1, hrc.2.2.1⟩
  have hassert : segment_argmax_assert input partition = true :=
    (assert_true_iff_counts input partition hn hpn hm hm0 hgapless).mpr huniq
  rcases segment_argmax_core_spec input partition hn hpn hm hm0 hsorted huniq with
    ⟨h1, h2, h3⟩
  refine ⟨(segment_argmax_core input partition).1, (segment_argmax_core input partition).2,
    ?_, h1, h2, h3⟩
  unfold segment_argmax
  rw [if_pos hassert]

/-- Witness for C2 at a concrete input: `[[1,0],[0,0],[5,0]]` with sorted
partition `[0,0,1]`, whose two groups each have a unique maximal cell. -/
theorem segment_argmax_spec_witness :
    (∀ g, g < numSegments [0, 0, 1] →
      maxCellCount [[1, 0], [0, 0], [5, 0]] [0, 0, 1] g = 1) ∧
    ∃ row_indices col_indices : List ℕ,
      segment_argmax [[1, 0], [0, 0], [5, 0]] [0, 0, 1] = some (row_indices, col_indices) ∧
      row_indices.length = numSegments [0, 0, 1] ∧
      col_indices.length = numSegments [0, 0, 1] ∧
      ∀ g, g < numSegments [0, 0, 1] →
        maxCell [[1, 0], [0, 0], [5, 0]] [0, 0, 1] g
          (row_indices.getD g 0, col_indices.getD g 0) :=
  ⟨by decide, segment_argmax_spec [[1, 0], [0, 0], [5, 0]] [0, 0, 1] 3 2 rfl rfl
    (by decide) (by decide) (by unfold sortedPartition; decide)
    (by unfold contiguousPartition; decide) (by decide)⟩

/-! ### Claim C3 -/

/-- Claim C3 counterexample: on input `[[1,1],[0,0],[5,0]]` with sorted
partition `[0,0,2]`, group 0 has two cells tied for its maximum, yet the
assertion passes and `segment_argmax` produces a result: the tie in group 0
is offset by the empty group 1, because the assertion only compares the
total count of maximal cells against `max(partition) + 1`. -/
theorem segment_argmax_assert_tie_passes :
    2 ≤ maxCellCount [[1, 1], [0, 0], [5, 0]] [0, 0, 2] 0 ∧
    sortedPartition [0, 0, 2] ∧
    segment_argmax_assert [[1, 1], [0, 0], [5, 0]] [0, 0, 2] = true ∧
    segment_argmax [[1, 1], [0, 0], [5, 0]] [0, 0, 2] ≠ none := by
  refine ⟨by decide, by unfold sortedPartition; decide, by decide, by decide⟩

/-- Claim C3 (amended): the assertion is an equality between the total count
of maximal cells and `max(partition) + 1`.  When the partition ids have no
gap (every id in `[0, max(partition)]` occurs), the assertion passes if and
only if every group's maximum is attained by exactly one cell; with a gap,
a tie can be offset by an empty group (see the counterexample). -/
theorem segment_argmax_assert_iff (input : List (List ℚ)) (partition : List ℕ) (n m : ℕ)
    (hn : input.length = n) (hpn : partition.length = n)
    (hm : ∀ row ∈ input, row.length = m) (hm0 : 0 < m)
    (hgapless : ∀ g, g < numSegments partition → g ∈ partition) :
    segment_argmax_assert input partition = true ↔
      ∀ g, g < numSegments partition → maxCellCount input partition g = 1 := by
  apply assert_true_iff_counts input partition hn hpn hm hm0
  intro g hg
  rcases List.mem_iff_getElem.mp (hgapless g hg) with ⟨i, hi, hgi⟩
  exact ⟨i, hi, by rw [List.getD_eq_getElem _ _ hi]; exact hgi⟩

/-- Witness for the amended C3 at a concrete gapless input. -/
theorem segment_argmax_assert_iff_witness :
    (∀ g, g < numSegments [0, 0, 1] → g ∈ ([0, 0, 1] : List ℕ)) ∧
    (segment_argmax_assert [[1, 0], [0, 0], [5, 0]] [0, 0, 1] = true ↔
      ∀ g, g < numSegments [0, 0, 1] →
        maxCellCount [[1, 0], [0, 0], [5, 0]] [0, 0, 1] g = 1) :=
  ⟨by decide, segment_argmax_assert_iff [[1, 0], [0, 0], [5, 0]] [0, 0, 1] 3 2 rfl rfl
    (by decide) (by decide) (by decide)⟩

/-! ### Claim C10 -/

/-- Claim C10: the assertion compares the total count of maximal cells
against `max(partition) + 1` rather than the number of distinct ids, so a
partition whose id range has a gap fails the assertion (and
`segment_argmax` produces no result) even when every non-empty group
contains exactly one cell attaining its group maximum. -/
theorem segment_argmax_gap_fails (input : List (List ℚ)) (partition : List ℕ) (n m : ℕ)
    (hn : input.length = n) (hpn : partition.length = n)
    (hm : ∀ row ∈ input, row.length = m) (hm0 : 0 < m)
    (hgap : ∃ g, g < numSegments partition ∧ g ∉ partition)
    (huniq : ∀ g ∈ partition, maxCellCount input partition g = 1) :
    segment_argmax_assert input partition = false ∧
    segment_argmax input partition = none := by
  have habsent : ∀ g : ℕ, g ∉ partition →
      ∀ i, i < partition.length → partition.getD i 0 ≠ g := by
    intro g hg i hi hcon
    apply hg
    rw [← hcon, List.getD_eq_getElem _ _ hi]
    exact List.getElem_mem _
  have hfalse : segment_argmax_assert input partition = false := by
    unfold segment_argmax_assert
    apply decide_eq_false
    rw [total_count_eq input partition hn hpn hm hm0]
    intro hcon
    have hle1 : ∀ x ∈ (List.range (numSegments partition)).map
        (fun g => maxCellCount input partition g), x ≤ 1 := by
      intro x hx
      rcases List.mem_map.mp hx with ⟨g, hg, rfl⟩
      by_cases hmem : g ∈ partition
      · rw [huniq g hmem]
      · rw [maxCellCount_eq_zero_of_absent (habsent g hmem)]
        omega
    rcases hgap with ⟨g₀, hg₀, hg₀n⟩
    have hz : maxCellCount input partition g₀ = 0 :=
      maxCellCount_eq_zero_of_absent (habsent g₀ hg₀n)
    have hmem0 : maxCellCount input partition g₀ ∈
        (List.range (numSegments partition)).map (fun g => maxCellCount input partition g) :=
      List.mem_map_of_mem _ (List.mem_range.mpr hg₀)
    have hlt := sum_lt_length_of_mem_zero _ hle1 hmem0 hz
    rw [List.length_map, List.length_range] at hlt
    omega
  refine ⟨hfalse, ?_⟩
  unfold segment_argmax
  rw [if_neg (by rw [hfalse]; simp)]

/-- Witness for C10: partition `[0,0,2]` has a gap at id 1; the two
non-empty groups of `[[1,0],[0,0],[5,0]]` each have a unique maximal cell,
and the assertion fails. -/
theorem segment_argmax_gap_fails_witness :
    ((1 : ℕ) < numSegments [0, 0, 2] ∧ (1 : ℕ) ∉ ([0, 0, 2] : List ℕ)) ∧
    (∀ g ∈ ([0, 0, 2] : List ℕ),
      maxCellCount [[1, 0], [0, 0], [5, 0]] [0, 0, 2] g = 1) ∧
    segment_argmax_assert [[1, 0], [0, 0], [5, 0]] [0, 0, 2] = false ∧
    segment_argmax [[1, 0], [0, 0], [5, 0]] [0, 0, 2] = none :=
  ⟨by decide, by decide,
    segment_argmax_gap_fails [[1, 0], [0, 0], [5, 0]] [0, 0, 2] 3 2 rfl rfl
      (by decide) (by decide) ⟨1, by decide, by decide⟩ (by decide)⟩

/-! ### Indexing into a flattened regular tensor -/

theorem headD_eq_getD_zero {α : Type} {l : List α} (h : l ≠ []) (d : α) :
    l.headD d = l.getD 0 d := by
  cases l with
  | nil => exact absurd rfl h
  | cons a t => rfl

theorem getD_flatten_of_regular {α : Type} (t : List (List α)) {d2 : ℕ}
    (hreg : ∀ r ∈ t, r.length = d2) {i k : ℕ} (hi : i < t.length) (hk : k < d2) (d : α) :
    t.flatten.getD (i * d2 + k) d = (t.getD i []).getD k d := by
  induction t generalizing i with
  | nil => simp at hi
  | cons r rest ih =>
    have hrlen : r.length = d2 := hreg r (List.mem_cons_self _ _)
    match i with
    | 0 =>
      simp only [List.flatten_cons, Nat.zero_mul, Nat.zero_add]
      rw [List.getD_append _ _ _ _ (by rw [hrlen]; exact hk)]
      rfl
    | i + 1 =>
      simp only [List.flatten_cons]
      have hmul : (i + 1) * d2 = i * d2 + d2 := Nat.succ_mul i d2
      rw [List.getD_append_right _ _ _ _ (by rw [hrlen]; omega)]
      have harith : (i + 1) * d2 + k - r.length = i * d2 + k := by
        rw [hrlen]; omega
      rw [harith]
      exact ih (fun r' hr' => hreg r' (List.mem_cons_of_mem _ hr')) (by simpa using hi)

/-! ### Claim C6 -/

/-- Claim C6: for a `[d1, d2, d3]` tensor and a one-indexed index vector
with entries in `[1, d2]`, row `i` of `get_by_index(tensor, index)` is slice
`index[i] - 1` of `tensor[i]` along the second dimension. -/
theorem get_by_index_spec (tensor : List (List (List ℚ))) (index : List ℤ)
    (d1 d2 d3 : ℕ) (h1 : tensor.length = d1)
    (h2 : ∀ mtx ∈ tensor, mtx.length = d2)
    (h3 : ∀ mtx ∈ tensor, ∀ row ∈ mtx, row.length = d3)
    (hil : index.length = d1)
    (hidx : ∀ i, i < d1 → 1 ≤ index.getD i 0 ∧ index.getD i 0 ≤ d2) :
    (get_by_index tensor index).length = d1 ∧
    ∀ i, i < d1 → (get_by_index tensor index).getD i [] =
      (tensor.getD i []).getD ((index.getD i 0 - 1).toNat) [] := by
  constructor
  · simp [get_by_index, h1]
  · intro i hi
    have hq := hidx i hi
    have hne : tensor ≠ [] := by
      intro hcon
      rw [hcon] at h1
      simp at h1
      omega
    have hd2 : (tensor.headD []).length = d2 := by
      rw [headD_eq_getD_zero hne []]
      apply h2
      rw [List.getD_eq_getElem _ _ (by omega)]
      exact List.getElem_mem _
    unfold get_by_index
    rw [List.map_map, getD_map_of_lt _ _ (by simpa [h1] using hi) 0 [], getD_range_of_lt (by omega) 0]
    simp only [Function.comp_apply]
    have hcast : (i : ℤ) * ((tensor.headD []).length : ℤ) + (index.getD i 0 - 1) =
        ((i * d2 + (index.getD i 0 - 1).toNat : ℕ) : ℤ) := by
      rw [hd2]
      push_cast
      rw [Int.toNat_of_nonneg (by omega)]
    rw [hcast, Int.toNat_natCast]
    exact getD_flatten_of_regular tensor h2 (by omega) (by omega) []

/-- Witness for C6 at a concrete `[2, 2, 2]` tensor with one-indexed
indices `[1, 2]`. -/
theorem get_by_index_spec_witness :
    (∀ i, i < 2 → 1 ≤ ([1, 2] : List ℤ).getD i 0 ∧ ([1, 2] : List ℤ).getD i 0 ≤ 2) ∧
    (get_by_index [[[1, 2], [3, 4]], [[5, 6], [7, 8]]] [1, 2]).length = 2 ∧
    ∀ i, i < 2 → (get_by_index [[[1, 2], [3, 4]], [[5, 6], [7, 8]]] [1, 2]).getD i [] =
      (([[[1, 2], [3, 4]], [[5, 6], [7, 8]]] : List (List (List ℚ))).getD i []).getD
        ((([1, 2] : List ℤ).getD i 0 - 1).toNat) [] :=
  ⟨by decide, get_by_index_spec [[[1, 2], [3, 4]], [[5, 6], [7, 8]]] [1, 2] 2 2 2 rfl
    (by decide) (by decide) rfl (by decide)⟩

/-! ### Claim C7 -/

/-- Claim C7: for a `[d1, d2, d3]` tensor with `d2 ≥ 1`, row `i` of
`get_last(tensor)` is the last slice `tensor[i][d2-1]` along the second
dimension. -/
theorem get_last_spec (tensor : List (List (List ℚ))) (d1 d2 d3 : ℕ)
    (h1 : tensor.length = d1) (h2 : ∀ mtx ∈ tensor, mtx.length = d2)
    (h3 : ∀ mtx ∈ tensor, ∀ row ∈ mtx, row.length = d3) (hd2 : 1 ≤ d2) :
    (get_last tensor).length = d1 ∧
    ∀ i, i < d1 → (get_last tensor).getD i [] = (tensor.getD i []).getD (d2 - 1) [] := by
  constructor
  · simp [get_last, h1]
  · intro i hi
    have hne : tensor ≠ [] := by
      intro hcon
      rw [hcon] at h1
      simp at h1
      omega
    have hmem0 : tensor.getD 0 [] ∈ tensor := by
      rw [List.getD_eq_getElem _ _ (by omega)]
      exact List.getElem_mem _
    have hd2' : (tensor.headD []).length = d2 := by
      rw [headD_eq_getD_zero hne []]
      exact h2 _ hmem0
    have hmemi : tensor.getD i [] ∈ tensor := by
      rw [List.getD_eq_getElem _ _ (by omega)]
      exact List.getElem_mem _
    have hmi : (tensor.getD i []).length = d2 := h2 _ hmemi
    unfold get_last
    dsimp only
    rw [List.drop_zero, List.take_length, List.map_map,
      getD_map_of_lt _ _ (by omega) [] [], hd2']
    simp only [Function.comp_apply]
    have hd2lt : d2 - 1 < (tensor.getD i []).length := by omega
    rw [List.drop_eq_getElem_cons hd2lt]
    have hd2stop : (tensor.getD i []).drop (d2 - 1 + 1) = [] := by
      have : d2 - 1 + 1 = (tensor.getD i []).length := by omega
      rw [this, List.drop_length]
    rw [hd2stop]
    have hrowmem : (tensor.getD i [])[d2 - 1] ∈ tensor.getD i [] := List.getElem_mem _
    have hrowlen : ((tensor.getD i [])[d2 - 1]).length = d3 := h3 _ hmemi _ hrowmem
    show ((tensor.getD i [])[d2 - 1].drop 0).take
      ((tensor.headD []).headD []).length = (tensor.getD i []).getD (d2 - 1) []
    rw [List.drop_zero]
    have hd3' : ((tensor.headD []).headD []).length = d3 := by
      have hm0 : (tensor.getD 0 []).length = d2 := h2 _ hmem0
      have hrow0 : (tensor.getD 0 []).getD 0 [] ∈ tensor.getD 0 [] := by
        rw [List.getD_eq_getElem (tensor.getD 0 []) ([] : List ℚ) (by omega)]
        exact List.getElem_mem _
      have hlen := h3 _ hmem0 _ hrow0
      rw [headD_eq_getD_zero hne [], headD_eq_getD_zero (by
        intro hcon
        rw [hcon] at hm0
        simp at hm0
        omega) []]
      exact hlen
    rw [hd3', ← hrowlen, List.take_length, List.getD_eq_getElem _ _ hd2lt]

/-- Witness for C7 at a concrete `[2, 2, 2]` tensor. -/
theorem get_last_spec_witness :
    (1 : ℕ) ≤ 2 ∧
    (get_last [[[1, 2], [3, 4]], [[5, 6], [7, 8]]]).length = 2 ∧
    ∀ i, i < 2 → (get_last [[[1, 2], [3, 4]], [[5, 6], [7, 8]]]).getD i [] =
      (([[[1, 2], [3, 4]], [[5, 6], [7, 8]]] : List (List (List ℚ))).getD i []).getD (2 - 1) [] :=
  ⟨by decide, get_last_spec [[[1, 2], [3, 4]], [[5, 6], [7, 8]]] 2 2 2 rfl
    (by decide) (by decide) (by decide)⟩

/-! ### Claim C5 -/

/-- Claim C5: for non-negative integer lengths with `batch_size` equal to
the number of lengths, the mask is `[batch_size, max_length]`-shaped, entry
`(b, j)` equals `value` exactly when the entry is active (`j >= lengths[b]`
when `mask_right`, `j < lengths[b]` otherwise) and 0 otherwise; omitted
sizes default to the number of lengths and the maximum length, and the two
concrete examples of the specification hold. -/
theorem mask_for_lengths_spec (lengths : List ℤ) (bs ml : ℕ) (mask_right : Bool)
    (value : ℚ) (hnn : ∀ x ∈ lengths, 0 ≤ x) (hbs : bs = lengths.length) :
    (mask_for_lengths lengths (some bs) (some ml) mask_right value).length = bs ∧
    (∀ row ∈ mask_for_lengths lengths (some bs) (some ml) mask_right value,
      row.length = ml) ∧
    (∀ b j, b < bs → j < ml →
      getE (mask_for_lengths lengths (some bs) (some ml) mask_right value) b j =
        if (if mask_right then lengths.getD b 0 ≤ (j : ℤ) else (j : ℤ) < lengths.getD b 0)
          then value else 0) ∧
    mask_for_lengths lengths none none mask_right value =
      mask_for_lengths lengths (some lengths.length) (some (listMax lengths).toNat)
        mask_right value ∧
    mask_for_lengths [2, 4] (some 2) (some 4) true (-1000) =
      [[0, 0, -1000, -1000], [0, 0, 0, 0]] ∧
    mask_for_lengths [2, 4] (some 2) (some 4) false (-1000) =
      [[-1000, -1000, 0, 0], [-1000, -1000, -1000, -1000]] := by
  refine ⟨by simp [mask_for_lengths], ?_, ?_, rfl,
    by norm_num [mask_for_lengths, List.range, List.range.loop],
    by norm_num [mask_for_lengths, List.range, List.range.loop]⟩
  · intro row hrow
    have hrow' : row ∈ (List.range bs).map (fun (b : ℕ) => (List.range ml).map (fun (j : ℕ) =>
        (if (if mask_right then lengths.getD b 0 ≤ (j : ℤ) else (j : ℤ) < lengths.getD b 0)
          then (1 : ℚ) else 0) * value)) := hrow
    rcases List.mem_map.mp hrow' with ⟨b, _, rfl⟩
    rw [List.length_map, List.length_range]
  · intro b j hb hj
    show (((List.range bs).map (fun (b : ℕ) => (List.range ml).map (fun (j : ℕ) =>
        (if (if mask_right then lengths.getD b 0 ≤ (j : ℤ) else (j : ℤ) < lengths.getD b 0)
          then (1 : ℚ) else 0) * value))).getD b []).getD j default = _
    rw [getD_map_of_lt _ _ (by simpa using hb) 0 [], getD_map_of_lt _ _ (by simpa using hj) 0,
      getD_range_of_lt hb 0, getD_range_of_lt hj 0]
    by_cases hcond :
        if mask_right then lengths.getD b 0 ≤ (j : ℤ) else (j : ℤ) < lengths.getD b 0
    · rw [if_pos hcond, if_pos hcond, one_mul]
    · rw [if_neg hcond, if_neg hcond, zero_mul]

/-- Witness for C5: the general entry formula applied at the corner entry
of the specification's own example. -/
theorem mask_for_lengths_spec_witness :
    (∀ x ∈ ([2, 4] : List ℤ), 0 ≤ x) ∧
    getE (mask_for_lengths [2, 4] (some 2) (some 4) true (-1000)) 0 2 =
      if (if true then ([2, 4] : List ℤ).getD 0 0 ≤ (2 : ℤ)
        else (2 : ℤ) < ([2, 4] : List ℤ).getD 0 0) then (-1000 : ℚ) else 0 :=
  ⟨by decide,
    (mask_for_lengths_spec [2, 4] 2 4 true (-1000) (by decide) rfl).2.2.1 0 2
      (by decide) (by decide)⟩

/-! ### Claim C8 -/

/-- Claim C8: for a 2-D input of shape `[n, m]` and an index vector of
length `n` with entries below `m`, `gather_rowwise_1d` returns the length-n
vector of entries `input[i][indices[i]]`; in particular it maps
`[[1,2,3],[4,5,6]]` with `[2,0]` to `[3,4]`. -/
theorem gather_rowwise_1d_spec (input : List (List ℚ)) (indices : List ℕ) (n m : ℕ)
    (hn : input.length = n) (him : indices.length = n)
    (hm : ∀ row ∈ input, row.length = m)
    (hidx : ∀ i, i < n → indices.getD i 0 < m) :
    (gather_rowwise_1d input indices).length = n ∧
    (∀ i, i < n → (gather_rowwise_1d input indices).getD i 0 =
      getE input i (indices.getD i 0)) ∧
    gather_rowwise_1d [[1, 2, 3], [4, 5, 6]] [2, 0] = [3, 4] := by
  refine ⟨?_, ?_, by decide⟩
  · simp [gather_rowwise_1d, gather_nd, gather_rowwise_indices_1d, List.length_zip, him]
  · intro i hi
    unfold gather_rowwise_1d gather_nd gather_rowwise_indices_1d
    have hzl : i < ((List.range indices.length).zip indices).length := by
      simp [List.length_zip]
      omega
    rw [getD_map_of_lt _ _ hzl (0, 0) 0]
    rw [List.getD_eq_getElem _ _ hzl, List.getElem_zip]
    rw [List.getElem_range]
    congr 1
    rw [List.getD_eq_getElem _ _ (by omega)]

/-- Witness for C8: the general entry formula applied at the concrete
example's first row. -/
theorem gather_rowwise_1d_spec_witness :
    (∀ i, i < 2 → ([2, 0] : List ℕ).getD i 0 < 3) ∧
    (gather_rowwise_1d [[1, 2, 3], [4, 5, 6]] [2, 0]).getD 0 0 =
      getE [[1, 2, 3], [4, 5, 6]] 0 (([2, 0] : List ℕ).getD 0 0) :=
  ⟨by decide,
    (gather_rowwise_1d_spec [[1, 2, 3], [4, 5, 6]] [2, 0] 2 3 rfl rfl (by decide)
      (by decide)).2.1 0 (by decide)⟩

/-! ### Claim C4 -/

theorem indexOf_map_succ (l : List ℕ) (k : ℕ) :
    (l.map Nat.succ).indexOf (k + 1) = l.indexOf k := by
  induction l with
  | nil => rfl
  | cons a t ih =>
    rw [List.map_cons, List.indexOf_cons, List.indexOf_cons]
    have hsb : ((a + 1 == k + 1) : Bool) = (a == k) := by simp
    have hs : Nat.succ a = a + 1 := rfl
    rw [hs, hsb, ih]

theorem indexOf_range {n k : ℕ} (hk : k < n) : (List.range n).indexOf k = k := by
  induction n generalizing k with
  | zero => omega
  | succ n ih =>
    rw [List.range_succ_eq_map]
    match k with
    | 0 => rfl
    | k + 1 =>
      rw [List.indexOf_cons]
      have h0 : ((0 == k + 1) : Bool) = false := rfl
      rw [h0]
      show (List.map Nat.succ (List.range n)).indexOf (k + 1) + 1 = k + 1
      rw [indexOf_map_succ, ih (by omega)]

theorem map_getD_range {α : Type} (l : List α) (d : α) :
    (List.range l.length).map (fun k => l.getD k d) = l := by
  induction l with
  | nil => rfl
  | cons a t ih =>
    rw [List.length_cons, List.range_succ_eq_map, List.map_cons, List.map_map]
    have hcomp : ((fun k => (a :: t).getD k d) ∘ Nat.succ) = (fun k => t.getD k d) := rfl
    rw [hcomp, ih]
    rfl

theorem swapDims_zero (r : ℕ) : swapDims r 0 = List.range r := by
  unfold swapDims
  match r with
  | 0 => rfl
  | r + 1 =>
    rw [List.range_succ_eq_map]
    rfl

theorem map_indexOf_range {r : ℕ} (ix : List ℕ) (hix : ix.length = r) :
    (List.range r).map (fun k => ix.getD ((List.range r).indexOf k) 0) = ix := by
  have h1 : (List.range r).map (fun k => ix.getD ((List.range r).indexOf k) 0) =
      (List.range r).map (fun k => ix.getD k 0) :=
    List.map_congr_left (fun k hk => by rw [indexOf_range (by simpa using hk)])
  rw [h1, show List.range r = List.range ix.length from by rw [hix], map_getD_range ix 0]

theorem transposeT_range_entry {α : Type} (x : Tensor α) (r : ℕ) (ix : List ℕ)
    (hix : ix.length = r) : (transposeT (List.range r) x).entry ix = x.entry ix := by
  show x.entry ((List.range (List.range r).length).map
    (fun k => ix.getD ((List.range r).indexOf k) 0)) = x.entry ix
  rw [List.length_range, map_indexOf_range ix hix]

theorem transposeT_range_shape {α : Type} (x : Tensor α) :
    (transposeT (List.range x.shape.length) x).shape = x.shape := by
  show (List.range x.shape.length).map (fun d => x.shape.getD d 0) = x.shape
  exact map_getD_range x.shape 0

/-- Claim C4 counterexample: for the 2 x 2 tensor `[[1,2],[3,4]]`, indices
`[0, 0]` and `dim = 1`, `gather_in_dim(params, idx, 1)` differs (at index
`[0, 1]`: entry 1 vs. entry 3) from `gather_in_dim(params', idx, 0)` on the
pre-transposed `params'`: the code transposes the gathered result back,
which the claim's equation omits. -/
theorem gather_in_dim_swap_counterexample :
    ¬ tensorEq (gather_in_dim sampleTensor [0, 0] 1)
      (gather_in_dim (transposeT (swapDims 2 1) sampleTensor) [0, 0] 0) := by
  rintro ⟨hshape, hentry⟩
  have hvalid : validIx (gather_in_dim sampleTensor [0, 0] 1).shape [0, 1] := by
    unfold validIx
    exact ⟨by decide, by decide⟩
  have hcontra := hentry [0, 1] hvalid
  revert hcontra
  decide

/-- Claim C4 (amended): for every valid `dim`, `gather_in_dim(params, idx,
dim)` equals the 0-dim transpose of `gather_in_dim(params', idx, 0)` on
`params'`, the 0-dim pre-transposed `params`: the claim's equation holds
only after transposing the dim-0 gather's result back. -/
theorem gather_in_dim_pretranspose {α : Type} (params : Tensor α) (indices : List ℕ)
    (dim : ℕ) (hdim : dim < params.shape.length) :
    tensorEq (gather_in_dim params indices dim)
      (transposeT (swapDims params.shape.length dim)
        (gather_in_dim (transposeT (swapDims params.shape.length dim) params) indices 0)) := by
  by_cases h0 : dim = 0
  · subst h0
    rw [swapDims_zero]
    constructor
    · show (gatherT params indices).shape =
        (List.range params.shape.length).map (fun d =>
          (gatherT (transposeT (List.range params.shape.length) params)
            indices).shape.getD d 0)
      have hsh : (gatherT (transposeT (List.range params.shape.length) params)
          indices).shape = indices.length :: params.shape.tail := by
        show indices.length ::
          (transposeT (List.range params.shape.length) params).shape.tail = _
        rw [transposeT_range_shape]
      rw [hsh]
      have hlen : (indices.length :: params.shape.tail).length = params.shape.length := by
        simp only [List.length_cons, List.length_tail]
        omega
      rw [show List.range params.shape.length =
        List.range (indices.length :: params.shape.tail).length from by rw [hlen]]
      exact (map_getD_range (indices.length :: params.shape.tail) 0).symm
    · intro ix hix
      have hshlen : (gather_in_dim params indices 0).shape.length =
          params.shape.length := by
        show (indices.length :: params.shape.tail).length = _
        simp only [List.length_cons, List.length_tail]
        omega
      have hixlen : ix.length = params.shape.length := by
        rcases hix with ⟨h1, _⟩
        rw [h1, hshlen]
      show (gatherT params indices).entry ix =
        (transposeT (List.range params.shape.length)
          (gatherT (transposeT (List.range params.shape.length) params) indices)).entry ix
      rw [transposeT_range_entry _ params.shape.length ix hixlen]
      show params.entry (indices.getD (ix.headD 0) 0 :: ix.tail) =
        (transposeT (List.range params.shape.length) params).entry
          (indices.getD (ix.headD 0) 0 :: ix.tail)
      rw [transposeT_range_entry _ params.shape.length _ (by
        simp only [List.length_cons, List.length_tail]
        omega)]
  · unfold gather_in_dim
    rw [if_neg h0, if_pos rfl]
    exact ⟨rfl, fun ix _ => rfl⟩

/-- Witness for the amended C4 at the concrete 2 x 2 tensor and `dim = 1`. -/
theorem gather_in_dim_pretranspose_witness :
    tensorEq (gather_in_dim sampleTensor [0, 0] 1)
      (transposeT (swapDims sampleTensor.shape.length 1)
        (gather_in_dim (transposeT (swapDims sampleTensor.shape.length 1) sampleTensor)
          [0, 0] 0)) :=
  gather_in_dim_pretranspose sampleTensor [0, 0] 1 (by decide)

/-! ### Claim C9 -/

theorem sum_sq_pos_of_ne_zero {l : List ℝ} (h : ∃ x ∈ l, x ≠ 0) :
    0 < (l.map (fun x => x * x)).sum := by
  rcases h with ⟨x, hx, hxne⟩
  rcases List.append_of_mem hx with ⟨s, t, rfl⟩
  rw [List.map_append, List.sum_append, List.map_cons, List.sum_cons]
  have hs : 0 ≤ (s.map (fun x => x * x)).sum := by
    apply List.sum_nonneg
    intro y hy
    rcases List.mem_map.mp hy with ⟨z, _, rfl⟩
    exact mul_self_nonneg z
  have ht : 0 ≤ (t.map (fun x => x * x)).sum := by
    apply List.sum_nonneg
    intro y hy
    rcases List.mem_map.mp hy with ⟨z, _, rfl⟩
    exact mul_self_nonneg z
  have hx2 : 0 < x * x := mul_self_pos.mpr hxne
  linarith

/-- Claim C9: for a shape `[n, m]` real tensor, every row that is not all
zero is mapped by `unit_length` to a row of Euclidean norm 1, and the
output row equals the input row divided by the square root of its sum of
squares. -/
theorem unit_length_spec (tensor : List (List ℝ)) (n m : ℕ)
    (hn : tensor.length = n) (hm : ∀ row ∈ tensor, row.length = m)
    (i : ℕ) (hi : i < n) (hnz : ∃ x ∈ tensor.getD i [], x ≠ 0) :
    Real.sqrt ((((unit_length tensor).getD i []).map (fun x => x * x)).sum) = 1 ∧
    (unit_length tensor).getD i [] =
      (tensor.getD i []).map
        (fun x => x / Real.sqrt (((tensor.getD i []).map (fun x => x * x)).sum)) := by
  have hspos : 0 < (((tensor.getD i []).map (fun x => x * x)).sum) :=
    sum_sq_pos_of_ne_zero hnz
  have hout : (unit_length tensor).getD i [] =
      (tensor.getD i []).map (fun x => x *
        (Real.sqrt (((tensor.getD i []).map (fun x => x * x)).sum))⁻¹) := by
    unfold unit_length
    rw [getD_map_of_lt _ _ (by omega) []]
  have hsumsq : (((unit_length tensor).getD i []).map (fun x => x * x)).sum = 1 := by
    rw [hout, List.map_map]
    have hfun : ((fun x => x * x) ∘ (fun x => x *
        (Real.sqrt (((tensor.getD i []).map (fun x => x * x)).sum))⁻¹)) =
        (fun x => x * x *
          ((Real.sqrt (((tensor.getD i []).map (fun x => x * x)).sum))⁻¹ *
            (Real.sqrt (((tensor.getD i []).map (fun x => x * x)).sum))⁻¹)) := by
      funext x
      simp only [Function.comp_apply]
      ring
    rw [hfun, List.sum_map_mul_right]
    have hinv : (Real.sqrt (((tensor.getD i []).map (fun x => x * x)).sum))⁻¹ *
        (Real.sqrt (((tensor.getD i []).map (fun x => x * x)).sum))⁻¹ =
        (((tensor.getD i []).map (fun x => x * x)).sum)⁻¹ := by
      rw [← mul_inv, Real.mul_self_sqrt (le_of_lt hspos)]
    rw [hinv, mul_inv_cancel₀ (ne_of_gt hspos)]
  refine ⟨by rw [hsumsq, Real.sqrt_one], ?_⟩
  rw [hout]
  apply List.map_congr_left
  intro x _
  rw [div_eq_mul_inv]

/-- Witness for C9 at the concrete row `[3, 4]`. -/
theorem unit_length_spec_witness :
    (∃ x ∈ (([[3, 4]] : List (List ℝ)).getD 0 []), x ≠ 0) ∧
    Real.sqrt ((((unit_length [[3, 4]]).getD 0 []).map (fun x => x * x)).sum) = 1 ∧
    (unit_length [[3, 4]]).getD 0 [] =
      (([[3, 4]] : List (List ℝ)).getD 0 []).map
        (fun x => x / Real.sqrt (((([[3, 4]] : List (List ℝ)).getD 0 []).map
          (fun x => x * x)).sum)) :=
  ⟨⟨3, by simp, by norm_num⟩,
    unit_length_spec [[3, 4]] 1 2 rfl
      (by
        intro row hrow
        rcases List.mem_singleton.mp hrow with rfl
        rfl)
      0 (by omega) ⟨3, by simp, by norm_num⟩⟩

/-! ### Claim C1 -/

theorem rows_ne_nil {α : Type} {scores : List (List α)} {m : ℕ}
    (hm : ∀ row ∈ scores, row.length = m) (hm0 : 0 < m) :
    ∀ row ∈ scores, row ≠ [] := by
  intro row hrow hcon
  have := hm row hrow
  rw [hcon] at this
  simp at this
  omega

theorem softmax_gmax (scores : List (List ℝ)) (partition : List ℕ) {n m : ℕ}
    (hn : scores.length = n) (hpn : partition.length = n)
    (hm : ∀ row ∈ scores, row.length = m) (hm0 : 0 < m) {i : ℕ} (hi : i < n) :
    (gatherL (segment_max (scores.map listMax) partition) partition).getD i 0 =
      gMax scores partition (partition.getD i 0) := by
  rw [gatherL_getD _ _ (by omega) 0]
  rw [segment_max_getD _ _ (getD_lt_numSegments (by omega)) default]
  exact listMax_slice_rowmax scores partition _ (by omega) (rows_ne_nil hm hm0)
    ⟨i, by omega, rfl⟩

theorem softmax_mpp_getD (scores : List (List ℝ)) (partition : List ℕ) {n m : ℕ}
    (hn : scores.length = n) (hpn : partition.length = n)
    (hm : ∀ row ∈ scores, row.length = m) (hm0 : 0 < m) {i : ℕ} (hi : i < n) :
    (segment_max (scores.map listMax) partition).getD (partition.getD i 0) default =
      gMax scores partition (partition.getD i 0) := by
  rw [segment_max_getD _ _ (getD_lt_numSegments (by omega)) default]
  exact listMax_slice_rowmax scores partition _ (by omega) (rows_ne_nil hm hm0)
    ⟨i, by omega, rfl⟩

theorem softmax_denominator (scores : List (List ℝ)) (partition : List ℕ) {n m : ℕ}
    (hn : scores.length = n) (hpn : partition.length = n)
    (hm : ∀ row ∈ scores, row.length = m) (hm0 : 0 < m) {i : ℕ} (hi : i < n) :
    (gatherL (segment_sum (((List.zipWith (fun row w => row.map (fun x => x - w))
        scores (gatherL (segment_max (scores.map listMax) partition) partition)).map
        (fun row => row.map Real.exp)).map (fun row => row.sum)) partition)
        partition).getD i 0 =
      ((segmentSlice scores partition (partition.getD i 0)).map
        (fun row => (row.map (fun x =>
          Real.exp (x - gMax scores partition (partition.getD i 0)))).sum)).sum := by
  rw [gatherL_getD _ _ (by omega) 0]
  rw [segment_sum_getD _ _ (getD_lt_numSegments (by omega)) default]
  rw [segmentSlice_map]
  rw [segmentSlice_map]
  rw [segmentSlice_zipWith_gatherL _ scores _ partition _ (by omega)]
  rw [softmax_mpp_getD scores partition hn hpn hm hm0 hi]
  rw [List.map_map, List.map_map]
  congr 1
  apply List.map_congr_left
  intro row _
  simp only [Function.comp_apply]
  rw [List.map_map]
  rfl

theorem segment_softmax_row (scores : List (List ℝ)) (partition : List ℕ) {n m : ℕ}
    (hn : scores.length = n) (hpn : partition.length = n)
    (hm : ∀ row ∈ scores, row.length = m) (hm0 : 0 < m) {i : ℕ} (hi : i < n) :
    (segment_softmax scores partition).getD i [] =
      (((scores.getD i []).map (fun x =>
        x - gMax scores partition (partition.getD i 0))).map Real.exp).map
        (fun x => x / ((segmentSlice scores partition (partition.getD i 0)).map
          (fun row => (row.map (fun y =>
            Real.exp (y - gMax scores partition (partition.getD i 0)))).sum)).sum) := by
  have hdef : segment_softmax scores partition =
      List.zipWith (fun row s => row.map (fun x => x / s))
        ((List.zipWith (fun row w => row.map (fun x => x - w))
          scores (gatherL (segment_max (scores.map listMax) partition) partition)).map
          (fun row => row.map Real.exp))
        (gatherL (segment_sum (((List.zipWith (fun row w => row.map (fun x => x - w))
          scores (gatherL (segment_max (scores.map listMax) partition) partition)).map
          (fun row => row.map Real.exp)).map (fun row => row.sum)) partition)
          partition) := rfl
  have hGlen : i < (gatherL (segment_max (scores.map listMax) partition) partition).length := by
    rw [gatherL_length]
    omega
  have hshlen : i < (List.zipWith (fun row w => row.map (fun x => x - w))
      scores (gatherL (segment_max (scores.map listMax) partition) partition)).length := by
    rw [List.length_zipWith, gatherL_length]
    omega
  have hSElen : i < ((List.zipWith (fun row w => row.map (fun x => x - w))
      scores (gatherL (segment_max (scores.map listMax) partition) partition)).map
      (fun row => row.map Real.exp)).length := by
    rw [List.length_map]
    exact hshlen
  have hGSlen : i < (gatherL (segment_sum (((List.zipWith (fun row w => row.map (fun x => x - w))
      scores (gatherL (segment_max (scores.map listMax) partition) partition)).map
      (fun row => row.map Real.exp)).map (fun row => row.sum)) partition)
      partition).length := by
    rw [gatherL_length]
    omega
  rw [hdef]
  rw [getD_zipWith_of_lt _ _ _ hSElen hGSlen [] 0 []]
  rw [softmax_denominator scores partition hn hpn hm hm0 hi]
  rw [getD_map_of_lt _ _ hshlen [] []]
  rw [getD_zipWith_of_lt _ _ _ (by omega) hGlen [] 0 []]
  rw [softmax_gmax scores partition hn hpn hm hm0 hi]

/-- Claim C1: for scores of shape `[n, m]` and a partition vector whose
equal ids occupy contiguous rows (realized here by the sortedness
precondition of the runtime's segment primitives, which implies the stated
contiguity), `segment_softmax` returns an `[n, m]` tensor whose entry
`(i, j)` equals `exp(scores[i][j] - M_g) / (sum over all rows r of row i's
group and all columns c of exp(scores[r][c] - M_g))`, where `M_g` is the
maximum over all entries of all rows of row i's group; over exact real
arithmetic this equals the softmax normalized jointly over every cell of
the group, not per-row. -/
theorem segment_softmax_spec (scores : List (List ℝ)) (partition : List ℕ) (n m : ℕ)
    (hn : scores.length = n) (hpn : partition.length = n)
    (hm : ∀ row ∈ scores, row.length = m) (hm0 : 0 < m)
    (hsorted : sortedPartition partition) (hcontig : contiguousPartition partition) :
    (segment_softmax scores partition).length = n ∧
    (∀ row ∈ segment_softmax scores partition, row.length = m) ∧
    ∀ i j, i < n → j < m →
      getE (segment_softmax scores partition) i j =
        Real.exp (getE scores i j - gMax scores partition (partition.getD i 0)) /
          ((segmentSlice scores partition (partition.getD i 0)).map
            (fun row => (row.map (fun x =>
              Real.exp (x - gMax scores partition (partition.getD i 0)))).sum)).sum ∧
      getE (segment_softmax scores partition) i j =
        Real.exp (getE scores i j) /
          ((segmentSlice scores partition (partition.getD i 0)).map
            (fun row => (row.map Real.exp).sum)).sum := by
  have hlen : (segment_softmax scores partition).length = n := by
    unfold segment_softmax
    dsimp only
    rw [List.length_zipWith, List.length_map, List.length_zipWith, gatherL_length,
      gatherL_length]
    omega
  refine ⟨hlen, ?_, ?_⟩
  · intro row hrow
    rcases List.mem_iff_getElem.mp hrow with ⟨i, hilen, heq⟩
    have hi : i < n := by omega
    have hrow' : row = (segment_softmax scores partition).getD i [] := by
      rw [List.getD_eq_getElem _ _ hilen, heq]
    rw [hrow', segment_softmax_row scores partition hn hpn hm hm0 hi]
    simp only [List.length_map]
    exact input_row_length hn hm hi
  · intro i j hi hj
    have hrowi := segment_softmax_row scores partition hn hpn hm hm0 hi
    have hrl : (scores.getD i []).length = m := input_row_length hn hm hi
    have hform1 : getE (segment_softmax scores partition) i j =
        Real.exp (getE scores i j - gMax scores partition (partition.getD i 0)) /
          ((segmentSlice scores partition (partition.getD i 0)).map
            (fun row => (row.map (fun x => Real.exp (x - gMax scores partition
              (partition.getD i 0)))).sum)).sum := by
      unfold getE
      rw [hrowi]
      rw [getD_map_of_lt _ _ (by simp only [List.length_map]; omega) default default]
      rw [getD_map_of_lt _ _ (by simp only [List.length_map]; omega) default default]
      rw [getD_map_of_lt _ _ (by omega) default default]
    refine ⟨hform1, ?_⟩
    rw [hform1]
    have hnum : Real.exp (getE scores i j - gMax scores partition (partition.getD i 0)) =
        Real.exp (getE scores i j) *
          (Real.exp (gMax scores partition (partition.getD i 0)))⁻¹ := by
      rw [Real.exp_sub, div_eq_mul_inv]
    have hD : ((segmentSlice scores partition (partition.getD i 0)).map
        (fun row => (row.map (fun x => Real.exp (x - gMax scores partition
          (partition.getD i 0)))).sum)).sum =
        ((segmentSlice scores partition (partition.getD i 0)).map
          (fun row => (row.map Real.exp).sum)).sum *
          (Real.exp (gMax scores partition (partition.getD i 0)))⁻¹ := by
      rw [← List.sum_map_mul_right]
      congr 1
      apply List.map_congr_left
      intro row _
      rw [← List.sum_map_mul_right]
      congr 1
      apply List.map_congr_left
      intro x _
      rw [Real.exp_sub, div_eq_mul_inv]
    rw [hnum, hD, mul_div_mul_right _ _ (inv_ne_zero (Real.exp_ne_zero _))]

/-- Witness for C1 at the one-cell input `[[0]]` with partition `[0]`. -/
theorem segment_softmax_spec_witness :
    (segment_softmax [[0]] [0]).length = 1 ∧
    (∀ row ∈ segment_softmax [[0]] [0], row.length = 1) ∧
    ∀ i j, i < 1 → j < 1 →
      getE (segment_softmax [[0]] [0]) i j =
        Real.exp (getE ([[0]] : List (List ℝ)) i j -
          gMax ([[0]] : List (List ℝ)) [0] (([0] : List ℕ).getD i 0)) /
          ((segmentSlice ([[0]] : List (List ℝ)) [0] (([0] : List ℕ).getD i 0)).map
            (fun row => (row.map (fun x => Real.exp (x - gMax ([[0]] : List (List ℝ)) [0]
              (([0] : List ℕ).getD i 0)))).sum)).sum ∧
      getE (segment_softmax [[0]] [0]) i j =
        Real.exp (getE ([[0]] : List (List ℝ)) i j) /
          ((segmentSlice ([[0]] : List (List ℝ)) [0] (([0] : List ℕ).getD i 0)).map
            (fun row => (row.map Real.exp).sum)).sum :=
  segment_softmax_spec [[0]] [0] 1 1 rfl rfl
    (by
      intro row hrow
      rcases List.mem_singleton.mp hrow with rfl
      rfl)
    (by omega) (by unfold sortedPartition; decide) (by unfold contiguousPartition; decide)
